import Mathlib

/-!
Position tracking of the protobuf scanner.

A shallow embedding of `internal/lexer/scanner/position.go` and the
properties its specification states about it.

Go's `int` is modelled by `Int`: every field of a position is bounded in
absolute value by the number of runes read so far, far below the range of a
machine word.  Go's `rune` (an `int32`) is modelled by `Int` as well, so that
values with no UTF-8 encoding (negative, surrogate, above U+10FFFF) are
ordinary inputs.  A Go `map[int]int` is modelled by a function
`Int → Option Int`; `none` is an absent key, and reading an absent key gives
`0` as in Go.  A `Position` always owns an allocated map, as the only
constructor `NewPosition` establishes.
-/

namespace Meta

/-- The struct `meta.Position` embedded in `scanner.Position`: the reported
part of a source position. -/
structure Position where
  Filename : String
  Offset : Int
  Line : Int
  Column : Int
  deriving DecidableEq, Repr

end Meta

namespace Scanner

/-- A Go rune. -/
abbrev Rune := Int

/-- The rune of a character literal. -/
def runeOf (c : Char) : Rune := (c.toNat : Int)

/-- The function `utf8.RuneLen` of the Go standard library:
the number of bytes of the UTF-8 encoding of `r`, or `-1` when `r` has none. -/
def RuneLen (r : Rune) : Int :=
  if r < 0 then -1
  else if r ≤ 0x7F then 1
  else if r ≤ 0x7FF then 2
  else if 0xD800 ≤ r ∧ r ≤ 0xDFFF then -1
  else if r ≤ 0xFFFF then 3
  else if r ≤ 0x10FFFF then 4
  else -1

/-- The struct `scanner.Position`: a `meta.Position` and the map from a line
number to the column that line ended at. -/
structure Position extends Meta.Position where
  columns : Int → Option Int

/-- Reading `m[k]` of a Go map: the zero value when the key is absent. -/
def mapGet (m : Int → Option Int) (k : Int) : Int := (m k).getD 0

/-- Writing `m[k] = v` of a Go map: the key is added, or its value replaced. -/
def mapSet (m : Int → Option Int) (k v : Int) : Int → Option Int :=
  fun j => if j = k then some v else m j

/-- The Go function `NewPosition`. -/
def NewPosition : Position :=
  { Filename := "", Offset := 0, Line := 1, Column := 1, columns := fun _ => none }

/-- The Go method `Position.Advance`. -/
def Position.Advance (pos : Position) (r : Rune) : Position :=
  let len := RuneLen r
  let pos := { pos with Offset := pos.Offset + len }
  if r = runeOf '\n' then
    let pos := { pos with columns := mapSet pos.columns pos.Line pos.Column }
    let pos := { pos with Line := pos.Line + 1 }
    { pos with Column := 1 }
  else
    { pos with Column := pos.Column + 1 }

/-- The Go method `Position.Revert`. -/
def Position.Revert (pos : Position) (r : Rune) : Position :=
  let len := RuneLen r
  let pos := { pos with Offset := pos.Offset - len }
  if r = runeOf '\n' then
    let pos := { pos with Line := pos.Line - 1 }
    { pos with Column := mapGet pos.columns pos.Line }
  else
    { pos with Column := pos.Column - 1 }

/-- Calling `Advance` for each rune of a list, in order. -/
def advanceAll (pos : Position) (rs : List Rune) : Position :=
  rs.foldl Position.Advance pos

/-- The number of runes of `rs` that come after its last newline: all of them
when `rs` has no newline. -/
def runesAfterLastNewline (rs : List Rune) : Nat :=
  (rs.reverse.takeWhile (fun r => decide (r ≠ runeOf '\n'))).length

/-- The number of newline runes in `rs`. -/
def newlineCount (rs : List Rune) : Nat :=
  rs.count (runeOf '\n')

/-- Calling `Revert` for each rune of a list, in order. -/
def revertAll (pos : Position) (rs : List Rune) : Position :=
  rs.foldl Position.Revert pos

/-- Reading the runes `rs` and then unreading them as a stack: `Advance` for each
rune in order, then `Revert` for each rune in reverse order. -/
def readUnread (pos : Position) (rs : List Rune) : Position :=
  revertAll (advanceAll pos rs) rs.reverse

/-- A text with several newlines, two of them adjacent. -/
def sampleRunes : List Rune := "ab\n\ncd\ne\n".toList.map runeOf

/-- The function `utf8.ValidRune` of the Go standard library: `r` is a Unicode
scalar value, so it has a UTF-8 encoding. -/
def ValidRune (r : Rune) : Bool :=
  if 0 ≤ r ∧ r < 0xD800 then true
  else if 0xDFFF < r ∧ r ≤ 0x10FFFF then true
  else false

/-- One call on a position tracker. -/
inductive Step where
  | advance (r : Rune)
  | revert (r : Rune)
  deriving DecidableEq, Repr

/-- Performing one call. -/
def Position.step (pos : Position) : Step → Position
  | .advance r => pos.Advance r
  | .revert r => pos.Revert r

/-- Performing a sequence of calls, in order. -/
def run (pos : Position) (steps : List Step) : Position :=
  steps.foldl Position.step pos

/-- A sequence of calls in which every `Advance` is given a valid rune and
every `Revert r` comes immediately after an `Advance r` of the same rune;
`prev` is the call made just before the sequence, if any. -/
def pairedFrom (prev : Option Step) : List Step → Bool
  | [] => true
  | .advance r :: rest => ValidRune r && pairedFrom (some (.advance r)) rest
  | .revert r :: rest => decide (prev = some (.advance r)) && pairedFrom (some (.revert r)) rest

/-- The sequences of calls the scanner makes on a fresh tracker. -/
def paired (steps : List Step) : Bool := pairedFrom none steps

/-- The reported position is in range: line and column from 1, offset from 0. -/
def Position.InRange (p : Position) : Prop :=
  1 ≤ p.Line ∧ 1 ≤ p.Column ∧ 0 ≤ p.Offset

/-- The state after reading `a`, a newline, and unreading both. -/
def rereadState : Position :=
  (((NewPosition.Advance (runeOf 'a')).Advance (runeOf '\n')).Revert (runeOf '\n')).Revert
    (runeOf 'a')

/-- A sequence of calls with an unread across a newline. -/
def sampleSteps : List Step :=
  [.advance (runeOf 'a'), .advance (runeOf '\n'), .revert (runeOf '\n'),
   .advance (runeOf '\n'), .advance (runeOf 'b'), .revert (runeOf 'b')]

end Scanner

/-!
The scanner and the top-level parser.

The source of the scanner proper and of the parser is not part of this
development's sources; only the position tracker above and the parser's test
table are.  The definitions of this section are modelled from the
specification, with the scanner options at their defaults.  Every position they
report is computed by the embedded `Position.Advance`.  The bodies of the
declarations are not interpreted: a production takes the lexemes up to its
terminator.  The scanner skips comments wherever they stand, and the comment
attachment policy of section 4.4 decides where each goes: inline for the
declaration whose terminator it follows on the same line, leading for the
declaration it stands immediately before with no blank line, free-floating
otherwise.
-/

namespace Parser

open Scanner

/-- Modelled from the spec: the token kinds of section 3.2 that the scanner
(missing from the sources) tells apart by itself.  Keywords and booleans are
contextual, so the scanner reports them as identifiers; end of input is the end
of the token list, and an illegal rune is a lexical error. -/
inductive TokenKind where
  | IDENT
  | INT
  | FLOAT
  | STRING
  | PUNCT
  | COMMENT
  deriving DecidableEq, Repr

/-- Modelled from the spec: the error taxonomy of section 7, for the missing
error type. -/
inductive ErrorKind where
  | LexError
  | ParseError
  | IoError
  deriving DecidableEq, Repr

/-- Modelled from the spec: the structured error of section 6.4 (missing from
the sources), reduced to its kind and position. -/
structure Error where
  kind : ErrorKind
  pos : Meta.Position
  deriving DecidableEq, Repr

/-- Modelled from the spec: what `scan()` of the missing scanner returns, a
token kind, the literal text and the position of the first rune. -/
structure Lexeme where
  kind : TokenKind
  raw : List Char
  pos : Meta.Position
  deriving DecidableEq, Repr

/-- Modelled from the spec: identifier start, `[A-Za-z_]`. -/
def isLetter (c : Char) : Bool := c.isAlpha || c == '_'

/-- Modelled from the spec: identifier continuation, `[A-Za-z0-9_]`. -/
def isIdentChar (c : Char) : Bool := c.isAlphanum || c == '_'

/-- Modelled from the spec: the punctuators `= ; , . : { } ( ) [ ] < >`. -/
def isPunct (c : Char) : Bool :=
  "=;,.:\x7b\x7d()[]<>".toList.contains c

/-- Modelled from the spec: the number of runes after the first of a
full-ident; a dot belongs to it only when an identifier start follows. -/
def fullIdentTail : List Char → Nat
  | [] => 0
  | c :: cs =>
    if isIdentChar c then fullIdentTail cs + 1
    else if c == '.' then
      match cs with
      | d :: _ => if isLetter d then fullIdentTail cs + 1 else 0
      | [] => 0
    else 0

/-- Modelled from the spec: the length of a block comment body up to and
including the closing `*/`; none when the comment is unterminated. -/
def blockCommentEnd : List Char → Option Nat
  | [] => none
  | c :: cs =>
    match c, cs with
    | '*', '/' :: _ => some 2
    | _, _ => (blockCommentEnd cs).map (· + 1)

/-- Modelled from the spec: the runes that may follow a backslash in a string
literal. -/
def isEscape (c : Char) : Bool :=
  "abfnrtv\\\'\"xX01234567uU".toList.contains c

/-- Modelled from the spec: the length of a string literal after its opening
quote `q`, up to and including the matching quote; none when the literal is
unterminated or has an invalid escape. -/
def stringEnd (q : Char) : List Char → Option Nat
  | [] => none
  | c :: cs =>
    if c == q then some 1
    else if c == '\\' then
      match cs with
      | e :: rest => if isEscape e then (stringEnd q rest).map (· + 2) else none
      | [] => none
    else (stringEnd q cs).map (· + 1)

/-- Modelled from the spec: decimal `0` or `[1-9][0-9]*`, octal `0[0-7]+`, hex
`0[xX][0-9A-Fa-f]+`. -/
def isIntLit (cs : List Char) : Bool :=
  match cs with
  | [] => false
  | ['0'] => true
  | '0' :: x :: ds =>
    if x == 'x' || x == 'X' then
      !ds.isEmpty && ds.all (fun d => d.isDigit || ('a' ≤ d && d ≤ 'f') || ('A' ≤ d && d ≤ 'F'))
    else (x :: ds).all (fun d => '0' ≤ d && d ≤ '7')
  | d :: ds => d.isDigit && ds.all Char.isDigit

/-- Modelled from the spec: the exponent `[eE][+-]?[0-9]+` of a float, or
nothing. -/
def isExponent (cs : List Char) : Bool :=
  match cs with
  | [] => true
  | e :: rest =>
    (e == 'e' || e == 'E') &&
      (match rest with
       | s :: ds =>
         if s == '+' || s == '-' then !ds.isEmpty && ds.all Char.isDigit
         else (s :: ds).all Char.isDigit
       | [] => false)

/-- Modelled from the spec: a float, decimal digits with an optional
fractional part and an optional exponent. -/
def isFloatLit (cs : List Char) : Bool :=
  let intPart := cs.takeWhile Char.isDigit
  let rest := cs.dropWhile Char.isDigit
  !intPart.isEmpty &&
    (match rest with
     | '.' :: frac => isExponent (frac.dropWhile Char.isDigit)
     | _ => isExponent rest)

/-- Modelled from the spec: the runes of a numeric literal after its first
rune; a sign is taken only right after an exponent marker. -/
def numberTail : Char → List Char → Nat
  | _, [] => 0
  | prev, c :: cs =>
    if c.isAlphanum || c == '.' || c == '_' then numberTail c cs + 1
    else if (c == '+' || c == '-') && (prev == 'e' || prev == 'E') then numberTail c cs + 1
    else 0

/-- Modelled from the spec: the number of runes of a line comment after its
`//`: to the end of the line, exclusive of the newline and of a CR immediately
before it, which is whitespace. -/
def lineCommentTail : List Char → Nat
  | [] => 0
  | c :: cs =>
    if c == '\n' then 0
    else if c == '\r' then
      match cs with
      | d :: _ => if d == '\n' then 0 else lineCommentTail cs + 1
      | [] => 1
    else lineCommentTail cs + 1

/-- Modelled from the spec: the recognition rules of section 4.2 for the token
that starts at a rune `c` that is not whitespace, followed by `cs`: the kind of
the token and how many runes of `cs` belong to it; none for an unterminated
string or block comment, an invalid escape, an invalid numeric literal or an
invalid rune. -/
def scanOne (c : Char) (cs : List Char) : Option (TokenKind × Nat) :=
  if c == '/' then
    match cs with
    | '/' :: rest => some (.COMMENT, lineCommentTail rest + 1)
    | '*' :: rest => (blockCommentEnd rest).map (fun n => (.COMMENT, n + 1))
    | _ => none
  else if c == '"' || c == '\'' then
    (stringEnd c cs).map (fun n => (.STRING, n))
  else if isLetter c then
    some (.IDENT, fullIdentTail cs)
  else if c.isDigit then
    let n := numberTail c cs
    let lit := c :: cs.take n
    if isIntLit lit then some (.INT, n)
    else if isFloatLit lit then some (.FLOAT, n)
    else none
  else if c == '-' then
    match cs with
    | d :: ds =>
      if d.isDigit then
        let n := numberTail d ds
        let lit := d :: ds.take n
        if isIntLit lit then some (.INT, n + 1)
        else if isFloatLit lit then some (.FLOAT, n + 1)
        else none
      else none
    | [] => none
  else if isPunct c then some (.PUNCT, 0)
  else none

/-- Modelled from the spec: the scanner's initial position, a fresh tracker
that reports the configured filename verbatim. -/
def startPosition (filename : String) : Position :=
  { NewPosition with Filename := filename }

/-- Modelled from the spec: the scanner (missing from the sources) run to the
end of the input: whitespace is skipped, every rune read advances the position
tracker, and each token or comment is reported with its literal text and the
position of its first rune.  `fuel` bounds the number of tokens and whitespace
runes. -/
def scanLoop : Nat → Position → List Char → Except Error (List Lexeme)
  | 0, pos, _ => .error ⟨.IoError, pos.toPosition⟩
  | _ + 1, _, [] => .ok []
  | fuel + 1, pos, c :: cs =>
    if c.isWhitespace then scanLoop fuel (pos.Advance (runeOf c)) cs
    else
      match scanOne c cs with
      | none => .error ⟨.LexError, pos.toPosition⟩
      | some (kind, n) =>
        let raw := c :: cs.take n
        match scanLoop fuel (advanceAll pos (raw.map runeOf)) (cs.drop n) with
        | .error e => .error e
        | .ok ls => .ok (⟨kind, raw, pos.toPosition⟩ :: ls)

/-- Modelled from the spec: scanning a whole source; a byte order mark at the
start is consumed and discarded. -/
def Scan (filename : String) (src : List Char) : Except Error (List Lexeme) :=
  match src with
  | c :: cs =>
    if c = '\uFEFF' then scanLoop (cs.length + 1) ((startPosition filename).Advance (runeOf c)) cs
    else scanLoop (src.length + 1) (startPosition filename) src
  | [] => .ok []

/-- Modelled from the spec: a comment attached to the tree (the type is missing
from the sources; the test table shows its fields), with its raw text and the
position of its first rune. -/
structure Comment where
  Raw : List Char
  Pos : Meta.Position
  deriving DecidableEq, Repr

/-- Modelled from the spec: the variants of a top-level entry that a producer
builds. -/
inductive NodeKind where
  | Syntax
  | Import
  | Package
  | Option
  | Message
  | Enum
  | Service
  | Extend
  | EmptyStatement
  deriving DecidableEq, Repr

/-- Modelled from the spec: a structural node of section 3.3 with its three
comment slots and its meta envelope.  The body is not interpreted: `tokens`
holds the lexemes of the source from the node's first token through its
terminator. -/
structure Node where
  kind : NodeKind
  Comments : List Comment
  InlineComment : Option Comment
  Pos : Meta.Position
  LastPos : Meta.Position
  tokens : List Lexeme
  deriving DecidableEq, Repr

/-- Modelled from the spec: an entry of `ProtoBody`, a declaration or a
free-floating comment. -/
inductive Visitee where
  | node (n : Node)
  | comment (c : Comment)
  deriving DecidableEq, Repr

/-- Modelled from the spec: the dialect declared by the syntax statement. -/
inductive Dialect where
  | proto2
  | proto3
  deriving DecidableEq, Repr

/-- Modelled from the spec: the top-level container of section 3.3. -/
structure Proto where
  Syntax : Option Node
  ProtoBody : List Visitee
  Filename : String
  deriving DecidableEq, Repr

/-- The lexeme is a comment. -/
def Lexeme.isComment (l : Lexeme) : Bool := l.kind == .COMMENT

/-- The lexeme is the punctuator `c`. -/
def Lexeme.isPunct (l : Lexeme) (c : Char) : Bool := l.kind == .PUNCT && l.raw == [c]

/-- The lexeme is the word `w`. -/
def Lexeme.isWord (l : Lexeme) (w : String) : Bool := l.kind == .IDENT && l.raw == w.toList

/-- The comment a comment lexeme becomes in the tree. -/
def toComment (l : Lexeme) : Comment := ⟨l.raw, l.pos⟩

/-- The lexeme of a comment of the tree. -/
def Comment.toLexeme (c : Comment) : Lexeme := ⟨.COMMENT, c.Raw, c.Pos⟩

/-- The line on which a lexeme ends: a block comment may span lines. -/
def Lexeme.endLine (l : Lexeme) : Int := l.pos.Line + (l.raw.count '\n' : Int)

/-- Modelled from the spec: no blank line stands between the comment `c` and
what begins on line `line` after it. -/
def adjacent (c : Lexeme) (line : Int) : Bool := decide (line ≤ c.endLine + 1)

/-- Modelled from the spec: the blank-line rule on the pending comments taken
nearest first: the comments up to the first blank line, going back from what
begins on line `line`. -/
def leadingRunRev (line : Int) : List Lexeme → List Lexeme
  | [] => []
  | c :: cs => if adjacent c line then c :: leadingRunRev c.pos.Line cs else []

/-- Modelled from the spec: the leading comments among the pending comments of
a node whose first token is on line `line`: the comments immediately before the
node with no blank line, in source order (section 4.4, scenario S6 and the
glossary). -/
def leadingRun (pending : List Lexeme) (line : Int) : List Lexeme :=
  (leadingRunRev line pending.reverse).reverse

/-- Modelled from the spec: the body of a simple statement, the lexemes up to and
including the first `;` outside braces (a constant may be a brace-delimited
message literal, kept as raw text); comments are skipped by the scanner, so they
may stand anywhere; none when the terminator is missing. -/
def takeStatement : Nat → List Lexeme → Option (List Lexeme × List Lexeme)
  | _, [] => none
  | depth, l :: ls =>
    if depth = 0 then
      if l.isPunct ';' then some ([l], ls)
      else if l.isPunct '}' then none
      else if l.isPunct '{' then (takeStatement 1 ls).map (fun p => (l :: p.1, p.2))
      else (takeStatement 0 ls).map (fun p => (l :: p.1, p.2))
    else
      if l.isPunct '}' then (takeStatement (depth - 1) ls).map (fun p => (l :: p.1, p.2))
      else if l.isPunct '{' then (takeStatement (depth + 1) ls).map (fun p => (l :: p.1, p.2))
      else (takeStatement depth ls).map (fun p => (l :: p.1, p.2))

/-- Modelled from the spec: the rest of a block after its opening brace, up to
and including the `}` that closes it; `depth` counts the braces opened inside. -/
def takeBalanced : Nat → List Lexeme → Option (List Lexeme × List Lexeme)
  | _, [] => none
  | depth, l :: ls =>
    if l.isPunct '}' then
      match depth with
      | 0 => some ([l], ls)
      | d + 1 => (takeBalanced d ls).map (fun p => (l :: p.1, p.2))
    else if l.isPunct '{' then (takeBalanced (depth + 1) ls).map (fun p => (l :: p.1, p.2))
    else (takeBalanced depth ls).map (fun p => (l :: p.1, p.2))

/-- Modelled from the spec: the body of a block construct, its header up to the
opening brace and then everything up to the matching `}`; comments are skipped
by the scanner, so they may stand in the header; none when a brace is missing. -/
def takeBlock : List Lexeme → Option (List Lexeme × List Lexeme)
  | [] => none
  | l :: ls =>
    if l.isPunct '{' then (takeBalanced 0 ls).map (fun p => (l :: p.1, p.2))
    else if l.isPunct ';' || l.isPunct '}' then none
    else (takeBlock ls).map (fun p => (l :: p.1, p.2))

/-- Modelled from the spec: the version of a syntax statement; `"proto2"` and
`"proto3"` are the recognized versions. -/
def versionOf (l : Lexeme) : Option Dialect :=
  if l.kind == .STRING then
    if l.raw == "\"proto2\"".toList || l.raw == "\'proto2\'".toList then some .proto2
    else if l.raw == "\"proto3\"".toList || l.raw == "\'proto3\'".toList then some .proto3
    else none
  else none

/-- The tokens of a list of lexemes: what the scanner returns once the comments
are skipped. -/
def tokensOf (ls : List Lexeme) : List Lexeme := ls.filter (fun l => !l.isComment)

/-- Modelled from the spec: the body of a syntax statement: its tokens, the
comments skipped, are `=`, a recognized version and `;`. -/
def takeSyntax (ls : List Lexeme) : Option (List Lexeme × List Lexeme) :=
  match takeStatement 0 ls with
  | none => none
  | some (body, rest) =>
    match tokensOf body with
    | [eq, v, _] => if eq.isPunct '=' && (versionOf v).isSome then some (body, rest) else none
    | _ => none

/-- Modelled from the spec: "parses its body": the lexemes of a declaration
after its first token, through its terminator. -/
def takeDecl : NodeKind → List Lexeme → Option (List Lexeme × List Lexeme)
  | .EmptyStatement, rest => some ([], rest)
  | .Syntax, rest => takeSyntax rest
  | .Import, rest => takeStatement 0 rest
  | .Package, rest => takeStatement 0 rest
  | .Option, rest => takeStatement 0 rest
  | .Message, rest => takeBlock rest
  | .Enum, rest => takeBlock rest
  | .Service, rest => takeBlock rest
  | .Extend, rest => takeBlock rest

/-- Modelled from the spec: the comments the scanner skips while a producer
parses its declaration, outside any braces: they are neither leading nor
inline. -/
def innerComments : Nat → List Lexeme → List Lexeme
  | _, [] => []
  | depth, l :: ls =>
    if l.isPunct '{' then innerComments (depth + 1) ls
    else if l.isPunct '}' then innerComments (depth - 1) ls
    else if depth = 0 && l.isComment then l :: innerComments depth ls
    else innerComments depth ls

/-- A comment that begins on line `line`. -/
def sameLineComment (line : Int) (l : Lexeme) : Bool :=
  l.isComment && l.pos.Line == line

/-- Modelled from the spec: after the terminator the producer peeks on the same
line: the inline comment is the first comment of the rest of the input that
begins on the line of the terminator, so with no newline between the two. -/
def inlineAfter (line : Int) (rest : List Lexeme) : Option Comment :=
  (rest.find? (sameLineComment line)).map toComment

/-- Modelled from the spec: what a producer gives back: the free-floating
comments before its node, the node, the free-floating comments after it and the
rest of the input. -/
structure Produced where
  before : List Comment
  node : Node
  after : List Comment
  rest : List Lexeme

/-- Modelled from the spec: the per-production contract of section 4.4 and the
comment attachment policy: the producer captures the position of its first
token, takes as leading comments the pending comments immediately before the
node with no blank line, parses its body, takes as inline comment the first
comment that begins on the line of its terminator after it, and records the
terminator's position.  The comments that are neither leading nor inline are
free-floating: the pending comments before a blank line, the comments skipped
inside the declaration and the additional comments on the terminator's line;
`claimed` is the inline comment of the previous declaration, which is not
produced again. -/
def produce (kind : NodeKind) (claimed : Option Comment) (pending : List Lexeme)
    (first : Lexeme) (rest : List Lexeme) : Except ErrorKind Produced :=
  match takeDecl kind rest with
  | none => .error .ParseError
  | some (body, rest') =>
    let term := body.getLastD first
    let leading := leadingRun pending first.pos.Line
    let inline := inlineAfter term.pos.Line rest'
    let inner := ((innerComments 0 (first :: body)).map toComment).filter
      (fun c => decide (some c ≠ claimed))
    let extras := ((rest'.takeWhile (sameLineComment term.pos.Line)).map toComment).filter
      (fun c => decide (some c ≠ inline))
    .ok { before := (pending.take (pending.length - leading.length)).map toComment,
          node := { kind := kind, Comments := leading.map toComment, InlineComment := inline,
                    Pos := first.pos, LastPos := term.pos, tokens := first :: body },
          after := inner ++ extras,
          rest := rest'.dropWhile (sameLineComment term.pos.Line) }

/-- Modelled from the spec: step 3 of the top-level algorithm, the dispatch on
the next keyword or punctuator; `extend` is proto2 only and a second `syntax`
is an error. -/
def dispatch (dialect : Dialect) (l : Lexeme) : Option NodeKind :=
  if l.isWord "import" then some .Import
  else if l.isWord "package" then some .Package
  else if l.isWord "option" then some .Option
  else if l.isWord "message" then some .Message
  else if l.isWord "enum" then some .Enum
  else if l.isWord "service" then some .Service
  else if l.isWord "extend" then (if dialect = .proto2 then some .Extend else none)
  else if l.isPunct ';' then some .EmptyStatement
  else none

/-- Modelled from the spec: steps 3 and 4 of the top-level algorithm: the loop
over the top-level producers, the free-floating comments being produced as
entries of their own in source order (the `comment` case of the dispatch);
comments pending at the end of the input are free-floating.  `claimed` is the
inline comment of the previous declaration; `fuel` bounds the number of
declarations. -/
def parseProtoBody (dialect : Dialect) :
    Nat → Option Comment → List Lexeme → Except ErrorKind (List Visitee)
  | 0, _, _ => .error .IoError
  | fuel + 1, claimed, ls =>
    let pending := ls.takeWhile Lexeme.isComment
    match ls.dropWhile Lexeme.isComment with
    | [] => .ok (pending.map (fun l => Visitee.comment (toComment l)))
    | first :: rest =>
      match dispatch dialect first with
      | none => .error .ParseError
      | some kind =>
        match produce kind claimed pending first rest with
        | .error e => .error e
        | .ok r =>
          match parseProtoBody dialect fuel r.node.InlineComment r.rest with
          | .error e => .error e
          | .ok body =>
            .ok (r.before.map Visitee.comment ++
              (Visitee.node r.node :: (r.after.map Visitee.comment ++ body)))

/-- Modelled from the spec: the dialect a parsed syntax statement declares. -/
def dialectOf (n : Node) : Dialect :=
  match tokensOf n.tokens with
  | _ :: _ :: v :: _ => (versionOf v).getD .proto2
  | _ => .proto2

/-- Modelled from the spec: the top-level algorithm of section 4.4 on the
scanner's output: the leading comments attach to the first node produced; a
syntax statement, when present, is the first construct that is not a comment
and sets the dialect, and its absence defaults the dialect to proto2. -/
def parseTokens (filename : String) (ls : List Lexeme) : Except ErrorKind Proto :=
  let pending := ls.takeWhile Lexeme.isComment
  match ls.dropWhile Lexeme.isComment with
  | [] =>
    match parseProtoBody .proto2 (ls.length + 1) none ls with
    | .error e => .error e
    | .ok body => .ok ⟨none, body, filename⟩
  | first :: rest =>
    if first.isWord "syntax" then
      match produce .Syntax none pending first rest with
      | .error e => .error e
      | .ok r =>
        match parseProtoBody (dialectOf r.node) (r.rest.length + 1) r.node.InlineComment
            r.rest with
        | .error e => .error e
        | .ok body =>
          .ok ⟨some r.node,
            r.before.map Visitee.comment ++ (r.after.map Visitee.comment ++ body), filename⟩
    else
      match parseProtoBody .proto2 (ls.length + 1) none ls with
      | .error e => .error e
      | .ok body => .ok ⟨none, body, filename⟩

/-- Modelled from the spec: the entry point `ParseProto` (missing from the
sources; the test table calls it): empty input is a parse error, a lexical
error ends the parse, and otherwise the top-level algorithm runs on the
scanner's output. -/
def ParseProto (filename : String) (input : String) : Except ErrorKind Proto :=
  if input.toList.isEmpty then .error .ParseError
  else
    match Scan filename input.toList with
    | .error e => .error e.kind
    | .ok ls => parseTokens filename ls

/-- The input of the case "parsing comments" of the test table. -/
def commentsInput : String :=
    "\n// syntax\n/*\nsyntax2\n*/\nsyntax = \"proto3\";\n" ++
    "// import\nimport public \"other.proto\";\n" ++
    "/* package */\npackage foo.bar;\n// option\n" ++
    "option java_package = \"com.example.foo\";\n" ++
    "// message\nmessage outer \x7b\n\x7d\n// enum\n" ++
    "enum EnumAllowingAlias \x7b\n  option allow_alias = true;\n" ++
    "\x7d\n// service\nservice SearchService \x7b\n" ++
    "  rpc Search (SearchRequest) returns (SearchResponse);\n" ++
    "\x7d\n"

/-- The input of the case "parsing inline comments" of the test table. -/
def inlineCommentsInput : String :=
    "\nsyntax = \"proto3\"; // syntax\nimport public \"other.proto\"; // import\n" ++
    "package foo.bar; /* package */\noption java_package = \"com.example.foo\"; // option\n" ++
    "message outer \x7b\n\x7d // message\nenum EnumAllowingAlias \x7b\n" ++
    "  option allow_alias = true;\n\x7d // enum\n" ++
    "service SearchService \x7b\n  rpc Search (SearchRequest) returns (SearchResponse);\n" ++
    "\x7d // service\n"

/-- The top-level entries of a tree in source order: the syntax statement, when
there is one, and then the body. -/
def Proto.entries (p : Proto) : List Visitee :=
  p.Syntax.toList.map Visitee.node ++ p.ProtoBody

/-- The declarations among the entries, in source order. -/
def nodesOf : List Visitee → List Node
  | [] => []
  | .node n :: es => n :: nodesOf es
  | .comment _ :: es => nodesOf es

/-- The top-level declarations of a tree in source order: the syntax statement,
when there is one, and then the declarations of the body. -/
def Proto.nodes (p : Proto) : List Node :=
  p.Syntax.toList ++ nodesOf p.ProtoBody

/-- One row of the table of `TestParser_ParseProto`; the type of the expected
tree is a parameter, and a nil `wantProto` is `none`. -/
structure TestCase (α : Type) where
  name : String
  input : String
  filename : String
  wantProto : Option α
  wantErr : Bool

/-- The body of the loop of `TestParser_ParseProto`: the number of failures it
reports for one row.  The parser under test and its `IsEOF` are parameters. -/
def runCase {α ε : Type} [DecidableEq α] (parse : String → String → Except ε α)
    (isEOF : String → String → Bool) (test : TestCase α) : Nat :=
  match parse test.filename test.input with
  | .error _ => if test.wantErr then 0 else 1
  | .ok got =>
    if test.wantErr then 1
    else
      (if some got = test.wantProto then 0 else 1) +
        (if isEOF test.filename test.input then 0 else 1)

/-- The first row of the test table, "parsing an empty": the input and the
filename are left at their zero values and an error is wanted. -/
def emptyCase (α : Type) : TestCase α :=
  { name := "parsing an empty", input := "", filename := "", wantProto := none, wantErr := true }

/-- What the test table states about a top-level declaration, restricted to the
fields the model has: its kind, its comments and its position. -/
structure NodeView where
  kind : NodeKind
  Comments : List Comment
  InlineComment : Option Comment
  Pos : Meta.Position
  deriving DecidableEq, Repr

/-- The view of an entry; none for a free-floating comment. -/
def Visitee.view : Visitee → Option NodeView
  | .node n => some ⟨n.kind, n.Comments, n.InlineComment, n.Pos⟩
  | .comment _ => none

/-- The views of the entries of a parse result; none for an error. -/
def viewsOf (r : Except ErrorKind Proto) : Option (List (Option NodeView)) :=
  match r with
  | .ok p => some (p.entries.map Visitee.view)
  | .error _ => none

/-- A comment as the test table writes it. -/
def wantComment (filename raw : String) (offset line column : Int) : Comment :=
  ⟨raw.toList, ⟨filename, offset, line, column⟩⟩

/-- The comments and positions of `wantProto` in the row "parsing comments". -/
def commentsWant : List NodeView :=
  let f := "comments.proto"
  [⟨.Syntax, [wantComment f "// syntax" 1 2 1, wantComment f "/*\nsyntax2\n*/" 11 3 1], none,
      ⟨f, 25, 6, 1⟩⟩,
   ⟨.Import, [wantComment f "// import" 44 7 1], none, ⟨f, 54, 8, 1⟩⟩,
   ⟨.Package, [wantComment f "/* package */" 83 9 1], none, ⟨f, 97, 10, 1⟩⟩,
   ⟨.Option, [wantComment f "// option" 114 11 1], none, ⟨f, 124, 12, 1⟩⟩,
   ⟨.Message, [wantComment f "// message" 165 13 1], none, ⟨f, 176, 14, 1⟩⟩,
   ⟨.Enum, [wantComment f "// enum" 194 16 1], none, ⟨f, 202, 17, 1⟩⟩,
   ⟨.Service, [wantComment f "// service" 258 20 1], none, ⟨f, 269, 21, 1⟩⟩]

/-- The comments and positions of `wantProto` in the row "parsing inline
comments". -/
def inlineCommentsWant : List NodeView :=
  let f := "inlineComments.proto"
  [⟨.Syntax, [], some (wantComment f "// syntax" 20 2 20), ⟨f, 1, 2, 1⟩⟩,
   ⟨.Import, [], some (wantComment f "// import" 59 3 30), ⟨f, 30, 3, 1⟩⟩,
   ⟨.Package, [], some (wantComment f "/* package */" 86 4 18), ⟨f, 69, 4, 1⟩⟩,
   ⟨.Option, [], some (wantComment f "// option" 141 5 42), ⟨f, 100, 5, 1⟩⟩,
   ⟨.Message, [], some (wantComment f "// message" 169 7 3), ⟨f, 151, 6, 1⟩⟩,
   ⟨.Enum, [], some (wantComment f "// enum" 236 10 3), ⟨f, 180, 8, 1⟩⟩,
   ⟨.Service, [], some (wantComment f "// service" 325 13 3), ⟨f, 244, 11, 1⟩⟩]

/-- A source with two comments on the line of a terminator. -/
def twoCommentsInput : String := "syntax = \"proto3\"; /* a */ /* b */\n"

/-- A source with two declarations and a comment on one line. -/
def twoDeclsInput : String := "message A \x7b\x7d enum B \x7b\x7d // c\n"

/-- The input of scenario S5 of the specification. -/
def scenarioS5 : String := "syntax = \"proto3\"; // hi"

/-- The input of scenario S6 of the specification. -/
def scenarioS6 : String := "// a\n// b\n\n// c\nmessage M \x7b\x7d"

/-- A source with a comment inside a statement and one in the header of a
block. -/
def innerCommentsInput : String :=
  "syntax /* s */ = \"proto3\";\n// i\nimport /* p */ \"a.proto\";\n// m\nmessage M // h\n\x7b\n\x7d"

/-- The lexeme `l` was read from the source `cs` by a tracker that started in
state `pos`: its raw text stands in `cs`, and its position is the one the
tracker reports after advancing over the runes before it. -/
def Located (pos : Position) (cs : List Char) (l : Lexeme) : Prop :=
  ∃ a b, cs = a ++ l.raw ++ b ∧ l.pos = (advanceAll pos (a.map runeOf)).toPosition

/-- The lexemes are in source order by line. -/
def LinesSorted (ls : List Lexeme) : Prop :=
  ls.Pairwise (fun x y => x.pos.Line ≤ y.pos.Line)

/-- The lexemes are in source order by offset, without repetition. -/
def OffsetsSorted (ls : List Lexeme) : Prop :=
  ls.Pairwise (fun x y => x.pos.Offset < y.pos.Offset)

/-- The lexemes `ls` are what the scanner reports for the source: they come in
source order, and each carries its raw text and the position the tracker
reports at its first rune, whose line is one plus the number of newlines before
it. -/
def ScannedFrom (filename input : String) (ls : List Lexeme) : Prop :=
  Scan filename input.toList = .ok ls ∧ OffsetsSorted ls ∧
  ∀ l ∈ ls, ∃ a b, input.toList = a ++ l.raw ++ b ∧
    l.pos = (advanceAll (startPosition filename) (a.map runeOf)).toPosition ∧
    l.pos.Line = 1 + (newlineCount (a.map runeOf) : Int)

/-- The comment `l` of the scanned source was read between the terminator of the
previous declaration (or the start of the file) and the first token of `n`: it
begins after the one and before the other. -/
def isBetween (prev : Option Node) (n : Node) (l : Lexeme) : Bool :=
  l.isComment && decide (l.pos.Offset < n.Pos.Offset) &&
    (match prev with
     | none => true
     | some p => decide (p.LastPos.Offset < l.pos.Offset))

/-- The comment `l` was read between the terminator of the previous declaration
(or the start of the file) and the first token of `n`, and it does not begin on
the line of that terminator. -/
def isCandidate (prev : Option Node) (n : Node) (l : Lexeme) : Bool :=
  l.isComment && decide (l.pos.Offset < n.Pos.Offset) &&
    (match prev with
     | none => true
     | some p => decide (p.LastPos.Offset < l.pos.Offset) && !(l.pos.Line == p.LastPos.Line))

/-- C9 as stated, for one declaration: all the comments read between the
terminator of the previous declaration (or the start of the file) and the first
token of `n`, in source order. -/
def statedLeading (ls : List Lexeme) (prev : Option Node) (n : Node) : List Comment :=
  (ls.filter (isBetween prev n)).map toComment

/-- C9 as amended, for one declaration: of the comments read between the
terminator of the previous declaration (or the start of the file) and the first
token of `n`, those that do not begin on the line of that terminator and stand
immediately before `n` with no blank line, in source order. -/
def expectedLeading (ls : List Lexeme) (prev : Option Node) (n : Node) : List Comment :=
  (leadingRun (ls.filter (isCandidate prev n)) n.Pos.Line).map toComment

/-- The comments of the scanned source that begin after the terminator of `n`
with no newline in between: after its offset, on its line; in source order. -/
def commentsAfterOnLine (ls : List Lexeme) (n : Node) : List Comment :=
  (ls.filter (fun l => l.isComment && decide (n.LastPos.Offset < l.pos.Offset) &&
    (l.pos.Line == n.LastPos.Line))).map toComment

/-- A declaration as it stands in the scanned source: its first token is a
lexeme of the source that is not a comment, at `Pos`, and its terminator is a
lexeme `;` or `\x7d` of the source, at `LastPos`. -/
def Node.TerminatedIn (n : Node) (ls : List Lexeme) : Prop :=
  ∃ f t, f ∈ ls ∧ t ∈ ls ∧ f.isComment = false ∧ n.Pos = f.pos ∧ n.LastPos = t.pos ∧
    (t.isPunct ';' = true ∨ t.isPunct '}' = true) ∧
    n.tokens.head? = some f ∧ n.tokens.getLast? = some t

/-- What the producer of `n` guarantees, `prev` being the declaration before it:
the leading comments are those of the amended C9, the inline comment is the
first comment that begins after the terminator on its line, and the declaration
stands in the source. -/
def NodeAttached (ls : List Lexeme) (prev : Option Node) (n : Node) : Prop :=
  n.Comments = expectedLeading ls prev n ∧
  n.InlineComment = (commentsAfterOnLine ls n).head? ∧
  n.TerminatedIn ls

/-- Every declaration of a list is attached, each with the one before it. -/
def Attached (ls : List Lexeme) : Option Node → List Node → Prop
  | _, [] => True
  | prev, n :: ns => NodeAttached ls prev n ∧ Attached ls (some n) ns

/-- The state of the top-level loop between two declarations: `done` is what
has been read of the source `ls` and `rem` what remains; when a declaration
`p` has been produced, `done` ends with its terminator and the comments that
follow it on its line, and `rem` does not start with such a comment. -/
def AtBoundary (ls done rem : List Lexeme) (prev : Option Node) : Prop :=
  ls = done ++ rem ∧
  match prev with
  | none => done = []
  | some p => ∃ d0 t trailing, done = d0 ++ t :: trailing ∧ t.pos = p.LastPos ∧
      (∀ l ∈ trailing, sameLineComment p.LastPos.Line l = true) ∧
      (∀ l r, rem = l :: r → sameLineComment p.LastPos.Line l = false)

/-- The tree of a successful parse; an empty tree for an error. -/
def treeOf (r : Except ErrorKind Proto) : Proto :=
  match r with
  | .ok p => p
  | .error _ => ⟨none, [], ""⟩

/-- The parse succeeded. -/
def isOk (r : Except ErrorKind Proto) : Bool :=
  match r with
  | .ok _ => true
  | .error _ => false

/-- The lexemes of a successful scan; none for an error. -/
def lexemesOf (r : Except Error (List Lexeme)) : List Lexeme :=
  match r with
  | .ok ls => ls
  | .error _ => []

/-- The tree the model builds for the row "parsing comments". -/
def commentsTree : Proto := treeOf (ParseProto "comments.proto" commentsInput)

/-- The tree the model builds for the row "parsing inline comments". -/
def inlineCommentsTree : Proto :=
  treeOf (ParseProto "inlineComments.proto" inlineCommentsInput)

/-- The tree the model builds for scenario S6. -/
def scenarioS6Tree : Proto := treeOf (ParseProto "s6.proto" scenarioS6)

/-- The tree the model builds for the source with comments inside
declarations. -/
def innerCommentsTree : Proto := treeOf (ParseProto "a.proto" innerCommentsInput)

/-- For each declaration of a list its kind, the leading comments C9 as stated
gives it and the leading comments it has. -/
def leadingReport (ls : List Lexeme) : Option Node → List Node →
    List (NodeKind × List Comment × List Comment)
  | _, [] => []
  | prev, n :: ns => (n.kind, statedLeading ls prev n, n.Comments) :: leadingReport ls (some n) ns

/-- For each declaration of a tree its kind, the comments that begin after its
terminator on the same line, and its inline comment. -/
def inlineReport (ls : List Lexeme) (t : Proto) :
    List (NodeKind × List Comment × Option Comment) :=
  t.nodes.map (fun n => (n.kind, commentsAfterOnLine ls n, n.InlineComment))

/-- The comment stands in the source with its raw text, at the position the
tracker reports at its first rune. -/
def CommentLocated (filename input : String) (c : Comment) : Prop :=
  ∃ a b, input.toList = a ++ c.Raw ++ b ∧
    c.Pos = (advanceAll (startPosition filename) (a.map runeOf)).toPosition

/-- C9 as amended, for one parse, `ls` being the lexemes the scanner reports in
source order: the leading comments of the first declaration are the comments
read before its first token that stand immediately before it with no blank
line; the leading comments of a declaration `n` that comes after a declaration
`p` are the comments read between the terminator of `p` and the first token of
`n` that do not begin on the line of that terminator and stand immediately
before `n` with no blank line, in source order, and the inline comment of `p` is
not among them; every declaration runs from a first token at `Pos` to a
terminator at `LastPos`, and every leading comment carries its raw text and the
position the tracker reports at its first rune. -/
def LeadingAttached (filename input : String) (proto : Proto) : Prop :=
  ∃ ls, ScannedFrom filename input ls ∧
    (∀ (n : Node) (post : List Node), proto.nodes = n :: post →
      n.Comments = expectedLeading ls none n) ∧
    (∀ (pre : List Node) (p n : Node) (post : List Node),
      proto.nodes = pre ++ p :: n :: post →
        n.Comments = expectedLeading ls (some p) n ∧
        (∀ c, p.InlineComment = some c → c ∉ n.Comments)) ∧
    (∀ n ∈ proto.nodes, n.TerminatedIn ls ∧
      ∀ c ∈ n.Comments, CommentLocated filename input c)

/-- C10 as amended, for one parse, `ls` being the lexemes the scanner reports in
source order: every declaration `n` runs from a first token to a terminator `;`
or `\x7d` at `LastPos`; its inline comment is the first of the comments that begin
after the terminator with no newline in between, and it has none when there is
no such comment; the inline comment begins on the terminator's line after the
terminator and carries its raw text and the position the tracker reports at its
first rune; and it is not a leading comment of the next declaration. -/
def InlineAttached (filename input : String) (proto : Proto) : Prop :=
  ∃ ls, ScannedFrom filename input ls ∧
    (∀ n ∈ proto.nodes, n.TerminatedIn ls ∧
      n.InlineComment = (commentsAfterOnLine ls n).head? ∧
      (∀ c, n.InlineComment = some c →
        c.Pos.Line = n.LastPos.Line ∧ n.LastPos.Offset < c.Pos.Offset ∧
        CommentLocated filename input c)) ∧
    (∀ (pre : List Node) (p n : Node) (post : List Node),
      proto.nodes = pre ++ p :: n :: post →
        ∀ c, p.InlineComment = some c → c ∉ n.Comments)

end Parser

namespace Scanner

theorem runeOf_newline : runeOf '\n' = 10 := by decide

theorem Advance_Filename (p : Position) (r : Rune) :
    (p.Advance r).Filename = p.Filename := by
  unfold Position.Advance; split <;> rfl

theorem Advance_Offset (p : Position) (r : Rune) :
    (p.Advance r).Offset = p.Offset + RuneLen r := by
  unfold Position.Advance; split <;> rfl

theorem Advance_Line (p : Position) (r : Rune) :
    (p.Advance r).Line = if r = runeOf '\n' then p.Line + 1 else p.Line := by
  unfold Position.Advance; split <;> rfl

theorem Advance_Column (p : Position) (r : Rune) :
    (p.Advance r).Column = if r = runeOf '\n' then 1 else p.Column + 1 := by
  unfold Position.Advance; split <;> rfl

theorem Advance_columns (p : Position) (r : Rune) :
    (p.Advance r).columns =
      if r = runeOf '\n' then mapSet p.columns p.Line p.Column
      else p.columns := by
  unfold Position.Advance; split <;> rfl

theorem Revert_Filename (p : Position) (r : Rune) :
    (p.Revert r).Filename = p.Filename := by
  unfold Position.Revert; split <;> rfl

theorem Revert_Offset (p : Position) (r : Rune) :
    (p.Revert r).Offset = p.Offset - RuneLen r := by
  unfold Position.Revert; split <;> rfl

theorem Revert_Line (p : Position) (r : Rune) :
    (p.Revert r).Line = if r = runeOf '\n' then p.Line - 1 else p.Line := by
  unfold Position.Revert; split <;> rfl

theorem Revert_Column (p : Position) (r : Rune) :
    (p.Revert r).Column =
      if r = runeOf '\n' then mapGet p.columns (p.Line - 1) else p.Column - 1 := by
  unfold Position.Revert; split <;> rfl

theorem Revert_columns (p : Position) (r : Rune) :
    (p.Revert r).columns = p.columns := by
  unfold Position.Revert; split <;> rfl

theorem Revert_Advance_Offset (p : Position) (r : Rune) :
    ((p.Advance r).Revert r).Offset = p.Offset := by
  rw [Revert_Offset, Advance_Offset]; ring

theorem Revert_Advance_Line (p : Position) (r : Rune) :
    ((p.Advance r).Revert r).Line = p.Line := by
  rw [Revert_Line, Advance_Line]; split <;> simp

theorem Revert_Advance_Column (p : Position) (r : Rune) :
    ((p.Advance r).Revert r).Column = p.Column := by
  rw [Revert_Column, Advance_Column, Advance_Line, Advance_columns]
  split <;> simp [mapGet, mapSet]

theorem Position.eq_of_fields (a b : Position) (hf : a.Filename = b.Filename)
    (ho : a.Offset = b.Offset) (hl : a.Line = b.Line) (hc : a.Column = b.Column)
    (hm : a.columns = b.columns) : a = b := by
  cases a with
  | mk am ac =>
    cases b with
    | mk bm bc =>
      cases am; cases bm
      simp_all

theorem mapSet_mapSet (m : Int → Option Int) (k v : Int) :
    mapSet (mapSet m k v) k v = mapSet m k v := by
  funext j
  simp only [mapSet]
  split <;> rfl

theorem advanceAll_nil (p : Position) : advanceAll p [] = p := rfl

theorem advanceAll_cons (p : Position) (r : Rune) (rs : List Rune) :
    advanceAll p (r :: rs) = advanceAll (p.Advance r) rs := rfl

theorem advanceAll_snoc (p : Position) (rs : List Rune) (r : Rune) :
    advanceAll p (rs ++ [r]) = (advanceAll p rs).Advance r := by
  simp [advanceAll, List.foldl_append]

theorem advanceAll_Offset (p : Position) (rs : List Rune) :
    (advanceAll p rs).Offset = p.Offset + (rs.map RuneLen).sum := by
  induction rs generalizing p with
  | nil => simp [advanceAll_nil]
  | cons r rs ih =>
    rw [advanceAll_cons, ih, Advance_Offset]
    simp only [List.map_cons, List.sum_cons]
    ring

theorem utf8Size_eq_ite (c : Char) :
    c.utf8Size = if c.toNat ≤ 0x7F then 1 else if c.toNat ≤ 0x7FF then 2
      else if c.toNat ≤ 0xFFFF then 3 else 4 := by
  simp only [Char.utf8Size, Char.toNat, UInt32.le_def, BitVec.le_def, UInt32.toNat]
  rfl

theorem RuneLen_runeOf (c : Char) : RuneLen (runeOf c) = (c.utf8Size : Int) := by
  have hv : c.toNat < 0xD800 ∨ (0xDFFF < c.toNat ∧ c.toNat < 0x110000) := c.valid
  rw [utf8Size_eq_ite]
  simp only [RuneLen, runeOf]
  unfold Rune
  split_ifs <;> first | (exfalso; omega) | rfl

theorem utf8ByteSize_mk (cs : List Char) :
    (String.mk cs).utf8ByteSize = (cs.map Char.utf8Size).sum := by
  show String.utf8ByteSize.go cs = _
  induction cs with
  | nil => rfl
  | cons c cs ih =>
    simp only [String.utf8ByteSize.go, ih, List.map_cons, List.sum_cons]; omega

theorem sum_RuneLen_runeOf (cs : List Char) :
    ((cs.map runeOf).map RuneLen).sum = (((cs.map Char.utf8Size).sum : Nat) : Int) := by
  induction cs with
  | nil => rfl
  | cons c cs ih =>
    simp only [List.map_cons, List.sum_cons, ih, RuneLen_runeOf, Nat.cast_add]

theorem runesAfterLastNewline_snoc (rs : List Rune) (r : Rune) :
    runesAfterLastNewline (rs ++ [r]) =
      if r = runeOf '\n' then 0 else runesAfterLastNewline rs + 1 := by
  simp only [runesAfterLastNewline, List.reverse_append, List.reverse_cons, List.reverse_nil,
    List.nil_append, List.singleton_append, List.takeWhile_cons]
  by_cases h : r = runeOf '\n' <;> simp [h]

theorem advanceAll_Column (rs : List Rune) :
    (advanceAll NewPosition rs).Column = 1 + (runesAfterLastNewline rs : Int) := by
  induction rs using List.reverseRecOn with
  | nil => rfl
  | append_singleton rs r ih =>
    rw [advanceAll_snoc, Advance_Column, ih, runesAfterLastNewline_snoc]
    split
    · simp
    · push_cast; ring

theorem advanceAll_Line (p : Position) (rs : List Rune) :
    (advanceAll p rs).Line = p.Line + (newlineCount rs : Int) := by
  induction rs generalizing p with
  | nil => simp [advanceAll_nil, newlineCount]
  | cons r rs ih =>
    rw [advanceAll_cons, ih, Advance_Line]
    by_cases h : r = runeOf '\n'
    · subst h
      simp only [newlineCount, if_true, List.count_cons_self, Nat.cast_add, Nat.cast_one]
      ring
    · have h' : ¬ (runeOf '\n' = r) := fun e => h e.symm
      simp [newlineCount, h, List.count_cons, h']

theorem RuneLen_pos_of_valid (r : Rune) (h : ValidRune r = true) : 1 ≤ RuneLen r := by
  unfold ValidRune at h
  unfold RuneLen
  unfold Rune at *
  split_ifs at h ⊢ <;> omega

theorem Advance_InRange (p : Position) (r : Rune) (hp : p.InRange)
    (hr : ValidRune r = true) : (p.Advance r).InRange := by
  have hlen := RuneLen_pos_of_valid r hr
  obtain ⟨hl, hc, ho⟩ := hp
  refine ⟨?_, ?_, ?_⟩
  · rw [Advance_Line]; split <;> omega
  · rw [Advance_Column]; split <;> omega
  · rw [Advance_Offset]; omega

theorem Revert_Advance_InRange (p : Position) (r : Rune) (hp : p.InRange) :
    ((p.Advance r).Revert r).InRange := by
  unfold Position.InRange
  rw [Revert_Advance_Line, Revert_Advance_Column, Revert_Advance_Offset]
  exact hp

theorem run_InRange (steps : List Step) :
    ∀ (p : Position) (prev : Option Step), p.InRange →
      (∀ r, prev = some (.advance r) → (p.Revert r).InRange) →
      pairedFrom prev steps = true → (run p steps).InRange := by
  induction steps with
  | nil => intro p prev hp _ _; exact hp
  | cons s rest ih =>
    intro p prev hp hprev hs
    cases s with
    | advance r =>
      simp only [pairedFrom, Bool.and_eq_true] at hs
      refine ih (p.Advance r) (some (.advance r)) (Advance_InRange p r hp hs.1) ?_ hs.2
      intro r' hr'
      have : r = r' := by injection (Option.some.inj hr')
      subst this
      exact Revert_Advance_InRange p r hp
    | revert r =>
      simp only [pairedFrom, Bool.and_eq_true, decide_eq_true_eq] at hs
      refine ih (p.Revert r) (some (.revert r)) (hprev r hs.1) ?_ hs.2
      intro r' hr'
      cases hr'

theorem validRune_iff_char (r : Rune) : ValidRune r = true ↔ ∃ c : Char, runeOf c = r := by
  constructor
  · intro h
    have hv : r.toNat.isValidChar := by
      unfold ValidRune at h
      unfold Rune at *
      unfold Nat.isValidChar
      split_ifs at h <;> omega
    have h0 : 0 ≤ r := by
      unfold ValidRune at h
      unfold Rune at *
      split_ifs at h <;> omega
    refine ⟨Char.ofNatAux r.toNat hv, ?_⟩
    show ((Char.ofNatAux r.toNat hv).toNat : Int) = r
    have : (Char.ofNatAux r.toNat hv).toNat = r.toNat := rfl
    rw [this]
    exact Int.toNat_of_nonneg h0
  · rintro ⟨c, rfl⟩
    have hv : c.toNat < 0xD800 ∨ (0xDFFF < c.toNat ∧ c.toNat < 0x110000) := c.valid
    unfold ValidRune runeOf
    unfold Rune
    split_ifs <;> first | rfl | (exfalso; omega)

/-- C1: `Revert` undoes `Advance` on the reported position: from any state and
for any rune, `Advance r` followed by `Revert r` gives back the offset, line
and column the state had; for a newline the column comes back out of the
archived-column map, where `Advance` stored it under the departing line. -/
theorem revert_advance_position (p : Position) (r : Rune) :
    ((p.Advance r).Revert r).Offset = p.Offset ∧
    ((p.Advance r).Revert r).Line = p.Line ∧
    ((p.Advance r).Revert r).Column = p.Column ∧
    ((p.Advance (runeOf '\n')).columns p.Line = some p.Column ∧
      ((p.Advance (runeOf '\n')).Revert (runeOf '\n')).Column
        = mapGet (p.Advance (runeOf '\n')).columns p.Line) := by
  refine ⟨Revert_Advance_Offset p r, Revert_Advance_Line p r, Revert_Advance_Column p r, ?_, ?_⟩
  · simp [Advance_columns, mapSet]
  · simp [Revert_Column, Advance_Line]

/-- C2: the offset is byte-accurate: advancing a fresh position over any list
of valid runes gives an offset equal to the byte length of the UTF-8 encoding
of the list, the sum of the encoded lengths of its runes; the valid runes are
exactly the Unicode scalar values, the characters of a string; the 20-byte
prefix that precedes the import in the test gives offset 20. -/
theorem offset_byte_accurate :
    (∀ cs : List Char,
      (advanceAll NewPosition (cs.map runeOf)).Offset = ((String.mk cs).utf8ByteSize : Int) ∧
      (advanceAll NewPosition (cs.map runeOf)).Offset
        = (((cs.map Char.utf8Size).sum : Nat) : Int)) ∧
    (∀ r : Rune, ValidRune r = true ↔ ∃ c : Char, runeOf c = r) ∧
    (advanceAll NewPosition ("\nsyntax = \"proto3\";\n".toList.map runeOf)).Offset = 20 := by
  refine ⟨fun cs => ?_, validRune_iff_char, by decide⟩
  have h : (advanceAll NewPosition (cs.map runeOf)).Offset
      = (((cs.map Char.utf8Size).sum : Nat) : Int) := by
    rw [advanceAll_Offset, sum_RuneLen_runeOf]
    simp [NewPosition]
  exact ⟨by rw [h, utf8ByteSize_mk], h⟩

/-- C3: the column counts runes, not bytes: advancing a fresh position over any
list of runes, whatever their encoded lengths, gives a column equal to one plus
the number of runes after the last newline of the list (all of them when there
is none); after the 19 runes that precede the inline comment on line 2 of the
test the column is 20. -/
theorem column_counts_runes :
    (∀ rs : List Rune,
      (advanceAll NewPosition rs).Column = 1 + (runesAfterLastNewline rs : Int)) ∧
    (∀ rs : List Rune, ¬ runeOf '\n' ∈ rs →
      (advanceAll NewPosition rs).Column = 1 + (rs.length : Int)) ∧
    (advanceAll NewPosition ("\nsyntax = \"proto3\"; ".toList.map runeOf)).Column = 20 := by
  refine ⟨advanceAll_Column, fun rs h => ?_, by decide⟩
  rw [advanceAll_Column]
  have : runesAfterLastNewline rs = rs.length := by
    unfold runesAfterLastNewline
    rw [List.takeWhile_eq_self_iff.mpr, List.length_reverse]
    intro r hr
    have hr' : r ∈ rs := List.mem_reverse.mp hr
    simp only [ne_eq, decide_eq_true_eq]
    rintro rfl
    exact h hr'
  rw [this]

/-- C4: line breaks are LF only: advancing a fresh position over any list of
runes gives a line equal to one plus the number of newline runes in it; a
single `Advance` adds one to the line for a newline and leaves it unchanged
for every other rune; a carriage return leaves the line unchanged and adds one
to the column, so a CR before an LF belongs to the line it ends. -/
theorem line_counts_newlines :
    (∀ rs : List Rune,
      (advanceAll NewPosition rs).Line = 1 + (newlineCount rs : Int)) ∧
    (∀ (p : Position) (r : Rune),
      (p.Advance r).Line = if r = runeOf '\n' then p.Line + 1 else p.Line) ∧
    (∀ p : Position, (p.Advance (runeOf '\r')).Line = p.Line ∧
      (p.Advance (runeOf '\r')).Column = p.Column + 1) ∧
    (∀ p : Position, (advanceAll p [runeOf '\r', runeOf '\n']).Line = p.Line + 1 ∧
      (advanceAll p [runeOf '\r', runeOf '\n']).columns p.Line = some (p.Column + 1)) := by
  refine ⟨fun rs => ?_, Advance_Line, fun p => ?_, fun p => ?_⟩
  · rw [advanceAll_Line]; rfl
  · have h : ¬ (runeOf '\r' = runeOf '\n') := by decide
    rw [Advance_Line, Advance_Column]
    simp [h]
  · have h : ¬ (runeOf '\r' = runeOf '\n') := by decide
    simp [advanceAll, Advance_Line, Advance_Column, Advance_columns, h, mapSet]

/-- C5: re-reading after an unread gives the same position: from any state and
for any rune, the whole state (filename, offset, line, column and the
archived-column map) after `Advance r`, `Revert r`, `Advance r` is the state
after a single `Advance r`. -/
theorem advance_revert_advance (p : Position) (r : Rune) :
    ((p.Advance r).Revert r).Advance r = p.Advance r := by
  apply Position.eq_of_fields
  · simp only [Advance_Filename, Revert_Filename]
  · simp only [Advance_Offset, Revert_Advance_Offset]
  · simp only [Advance_Line, Revert_Advance_Line]
  · simp only [Advance_Column, Revert_Advance_Column]
  · rw [Advance_columns, Revert_Advance_Line, Revert_Advance_Column, Revert_columns,
      Advance_columns]
    split
    · exact mapSet_mapSet _ _ _
    · rfl

/-- C6, as the specification states it, fails: after reading `a` and a newline
and unreading both, line 1 has the archived column 2, and the next
`Advance` of a newline replaces it by 1; so it is not true that `Advance`
never changes the column stored for a line that already has an entry. -/
theorem advance_overwrites_entry :
    rereadState.Line = 1 ∧ rereadState.Column = 1 ∧
    rereadState.columns 1 = some 2 ∧
    (rereadState.Advance (runeOf '\n')).columns 1 = some 1 ∧
    ¬ (∀ (p : Position) (r : Rune) (k v : Int),
        p.columns k = some v → (p.Advance r).columns k = some v) := by
  refine ⟨by decide, by decide, by decide, by decide, fun h => ?_⟩
  have h1 := h rereadState (runeOf '\n') 1 2 (by decide)
  have h2 : (rereadState.Advance (runeOf '\n')).columns 1 = some 1 := by decide
  rw [h2] at h1
  exact absurd h1 (by decide)

/-- C6, amended: the archived-column map never loses a key: a line that has an
entry still has one after `Advance` and after `Revert`; `Revert` leaves the
map as it is, and so does `Advance` of a rune other than a newline;
`Advance` of a newline sets the entry of the current line to the current
column, whether or not the line had an entry, and leaves the entry of every
other line as it is. -/
theorem columns_keys_kept (p : Position) (r : Rune) (k : Int) :
    ((p.columns k).isSome = true → ((p.Advance r).columns k).isSome = true) ∧
    ((p.columns k).isSome = true → ((p.Revert r).columns k).isSome = true) ∧
    (p.Revert r).columns = p.columns ∧
    (r ≠ runeOf '\n' → (p.Advance r).columns = p.columns) ∧
    (p.Advance (runeOf '\n')).columns p.Line = some p.Column ∧
    (k ≠ p.Line → (p.Advance r).columns k = p.columns k) := by
  refine ⟨fun h => ?_, fun h => ?_, Revert_columns p r, fun h => ?_, ?_, fun h => ?_⟩
  · rw [Advance_columns]
    split
    · simp only [mapSet]; split
      · rfl
      · exact h
    · exact h
  · rw [Revert_columns]; exact h
  · rw [Advance_columns, if_neg h]
  · simp [Advance_columns, mapSet]
  · rw [Advance_columns]
    split
    · simp [mapSet, h]
    · rfl

/-- C7: positions are 1-based in line and column and 0-based in offset: a fresh
position has offset 0, line 1 and column 1, and after any sequence of calls in
which every `Advance` gets a valid rune and every `Revert r` immediately
follows an `Advance r` of the same rune, the line and the column are at least
1 and the offset is at least 0. -/
theorem reachable_one_based (steps : List Step) (h : paired steps = true) :
    1 ≤ (run NewPosition steps).Line ∧ 1 ≤ (run NewPosition steps).Column ∧
    0 ≤ (run NewPosition steps).Offset ∧
    NewPosition.Offset = 0 ∧ NewPosition.Line = 1 ∧ NewPosition.Column = 1 := by
  have h0 : NewPosition.InRange := ⟨by decide, by decide, by decide⟩
  have hr := run_InRange steps NewPosition none h0 (fun r hr => by cases hr) h
  exact ⟨hr.1, hr.2.1, hr.2.2, rfl, rfl, rfl⟩

/-- The claim C7 at a sequence of calls that unreads a newline and a letter. -/
theorem reachable_one_based_witness :
    paired sampleSteps = true ∧
    1 ≤ (run NewPosition sampleSteps).Line ∧ 1 ≤ (run NewPosition sampleSteps).Column ∧
    0 ≤ (run NewPosition sampleSteps).Offset ∧
    NewPosition.Offset = 0 ∧ NewPosition.Line = 1 ∧ NewPosition.Column = 1 :=
  ⟨by decide, reachable_one_based sampleSteps (by decide)⟩

end Scanner


namespace Parser

open Scanner

theorem advanceAll_append (p : Position) (a b : List Rune) :
    advanceAll p (a ++ b) = advanceAll (advanceAll p a) b := by
  simp [advanceAll, List.foldl_append]

theorem advanceAll_Line_le (p : Position) (rs : List Rune) :
    p.Line ≤ (advanceAll p rs).Line := by
  rw [advanceAll_Line]; omega

theorem scanLoop_located (fuel : Nat) :
    ∀ (pos : Position) (cs : List Char) (ls : List Lexeme),
      scanLoop fuel pos cs = .ok ls → ∀ l ∈ ls, Located pos cs l := by
  induction fuel with
  | zero => intro pos cs ls h; simp [scanLoop] at h
  | succ fuel ih =>
    intro pos cs ls h l hl
    cases cs with
    | nil =>
      simp only [scanLoop, Except.ok.injEq] at h
      subst h; cases hl
    | cons c cs =>
      simp only [scanLoop] at h
      split at h
      · obtain ⟨a, b, hab, hp⟩ := ih _ _ _ h l hl
        exact ⟨c :: a, b, by simp [hab], by simpa [advanceAll_cons] using hp⟩
      · split at h
        · cases h
        · rename_i kind n hscan
          split at h
          · cases h
          · rename_i ls' hrec
            simp only [Except.ok.injEq] at h
            subst h
            rcases List.mem_cons.mp hl with rfl | hl'
            · exact ⟨[], cs.drop n, by simp, rfl⟩
            · obtain ⟨a, b, hab, hp⟩ := ih _ _ _ hrec l hl'
              refine ⟨(c :: cs.take n) ++ a, b, ?_, ?_⟩
              · have : cs = cs.take n ++ cs.drop n := (List.take_append_drop n cs).symm
                rw [hab] at this
                simp only [List.cons_append, List.append_assoc]
                rw [List.cons.injEq]
                exact ⟨rfl, by simpa [List.append_assoc] using this⟩
              · rw [hp, List.map_append, advanceAll_append]

theorem scanLoop_lines (fuel : Nat) :
    ∀ (pos : Position) (cs : List Char) (ls : List Lexeme),
      scanLoop fuel pos cs = .ok ls →
        (∀ l ∈ ls, pos.Line ≤ l.pos.Line) ∧ LinesSorted ls := by
  induction fuel with
  | zero => intro pos cs ls h; simp [scanLoop] at h
  | succ fuel ih =>
    intro pos cs ls h
    cases cs with
    | nil =>
      simp only [scanLoop, Except.ok.injEq] at h
      subst h
      exact ⟨fun l hl => (by cases hl), List.Pairwise.nil⟩
    | cons c cs =>
      simp only [scanLoop] at h
      split at h
      · obtain ⟨h1, h2⟩ := ih _ _ _ h
        refine ⟨fun l hl => ?_, h2⟩
        have := h1 l hl
        have hle : pos.Line ≤ (pos.Advance (runeOf c)).Line := by
          rw [Advance_Line]; split <;> omega
        omega
      · split at h
        · cases h
        · rename_i kind n hscan
          split at h
          · cases h
          · rename_i ls' hrec
            simp only [Except.ok.injEq] at h
            subst h
            obtain ⟨h1, h2⟩ := ih _ _ _ hrec
            have hle := advanceAll_Line_le pos ((c :: cs.take n).map runeOf)
            have hall : ∀ l ∈ ls', pos.Line ≤ l.pos.Line := fun l hl => by
              have := h1 l hl
              omega
            refine ⟨fun l hl => ?_, List.Pairwise.cons (fun l hl => hall l hl) h2⟩
            rcases List.mem_cons.mp hl with rfl | hl'
            · exact le_refl _
            · exact hall l hl'

theorem Scan_located (filename : String) (src : List Char) (ls : List Lexeme)
    (h : Scan filename src = .ok ls) : ∀ l ∈ ls, Located (startPosition filename) src l := by
  intro l hl
  unfold Scan at h
  cases src with
  | nil => simp only [Except.ok.injEq] at h; subst h; cases hl
  | cons c cs =>
    simp only at h
    split at h
    · obtain ⟨a, b, hab, hp⟩ := scanLoop_located _ _ _ _ h l hl
      exact ⟨c :: a, b, by simp [hab], by simpa [advanceAll_cons] using hp⟩
    · exact scanLoop_located _ _ _ _ h l hl

theorem Scan_lines (filename : String) (src : List Char) (ls : List Lexeme)
    (h : Scan filename src = .ok ls) : LinesSorted ls := by
  unfold Scan at h
  cases src with
  | nil => simp only [Except.ok.injEq] at h; subst h; exact List.Pairwise.nil
  | cons c cs =>
    simp only at h
    split at h
    · exact (scanLoop_lines _ _ _ _ h).2
    · exact (scanLoop_lines _ _ _ _ h).2

theorem toLexeme_toComment (l : Lexeme) (h : l.isComment = true) :
    (toComment l).toLexeme = l := by
  cases l with
  | mk kind raw pos =>
    simp only [Lexeme.isComment, beq_iff_eq] at h
    simp only [toComment, Comment.toLexeme, Lexeme.mk.injEq, and_true]
    exact h.symm

theorem toComment_toLexeme (c : Comment) : toComment c.toLexeme = c := rfl

theorem isComment_toLexeme (c : Comment) : c.toLexeme.isComment = true := by
  simp [Comment.toLexeme, Lexeme.isComment]

theorem map_toLexeme_toComment (ls : List Lexeme) (h : ∀ l ∈ ls, l.isComment = true) :
    (ls.map toComment).map Comment.toLexeme = ls := by
  induction ls with
  | nil => rfl
  | cons l ls ih =>
    simp only [List.map_cons]
    rw [toLexeme_toComment l (h l (List.mem_cons_self _ _)),
      ih (fun x hx => h x (List.mem_cons_of_mem _ hx))]

theorem isWord_not_comment (l : Lexeme) (w : String) (h : l.isWord w = true) :
    l.isComment = false := by
  simp only [Lexeme.isWord, Bool.and_eq_true, beq_iff_eq] at h
  simp [Lexeme.isComment, h.1]

theorem isPunct_not_comment (l : Lexeme) (c : Char) (h : l.isPunct c = true) :
    l.isComment = false := by
  simp only [Lexeme.isPunct, Bool.and_eq_true, beq_iff_eq] at h
  simp [Lexeme.isComment, h.1]

theorem getLast?_cons_of_some {α : Type} (x : α) (xs : List α) (t : α)
    (h : xs.getLast? = some t) : (x :: xs).getLast? = some t := by
  cases xs with
  | nil => simp at h
  | cons y ys => rw [List.getLast?_cons_cons]; exact h

theorem getLast?_cons_getLastD {α : Type} (x : α) (xs : List α) :
    (x :: xs).getLast? = some (xs.getLastD x) := by
  induction xs generalizing x with
  | nil => rfl
  | cons y ys ih => rw [List.getLast?_cons_cons, List.getLastD_cons]; exact ih y

theorem cons_map_some {l : Lexeme} {o : Option (List Lexeme × List Lexeme)}
    {b r : List Lexeme} (h : o.map (fun p => (l :: p.1, p.2)) = some (b, r)) :
    ∃ b', o = some (b', r) ∧ b = l :: b' := by
  cases o with
  | none => simp at h
  | some p =>
    obtain ⟨b', r'⟩ := p
    simp only [Option.map_some', Option.some.injEq, Prod.mk.injEq] at h
    exact ⟨b', by rw [h.2], h.1.symm⟩

theorem takeStatement_spec (ls : List Lexeme) :
    ∀ (d : Nat) (b r : List Lexeme), takeStatement d ls = some (b, r) →
      ls = b ++ r ∧ ∃ t, b.getLast? = some t ∧ t.isPunct ';' = true := by
  induction ls with
  | nil => intro d b r h; simp [takeStatement] at h
  | cons l ls ih =>
    intro d b r h
    have step : ∀ d', (takeStatement d' ls).map (fun p => (l :: p.1, p.2)) = some (b, r) →
        l :: ls = b ++ r ∧ ∃ t, b.getLast? = some t ∧ t.isPunct ';' = true := by
      intro d' h'
      obtain ⟨b', hb', rfl⟩ := cons_map_some h'
      obtain ⟨h1, t, ht, htp⟩ := ih d' b' r hb'
      exact ⟨by rw [h1]; rfl, t, getLast?_cons_of_some _ _ _ ht, htp⟩
    simp only [takeStatement] at h
    split_ifs at h with h0 h1 h2 h3 h4 h5
    · simp only [Option.some.injEq, Prod.mk.injEq] at h
      obtain ⟨rfl, rfl⟩ := h
      exact ⟨rfl, l, rfl, h1⟩
    · exact step _ h
    · exact step _ h
    · exact step _ h
    · exact step _ h
    · exact step _ h

theorem takeBalanced_spec (ls : List Lexeme) :
    ∀ (d : Nat) (b r : List Lexeme), takeBalanced d ls = some (b, r) →
      ls = b ++ r ∧ ∃ t, b.getLast? = some t ∧ t.isPunct '}' = true := by
  induction ls with
  | nil => intro d b r h; simp [takeBalanced] at h
  | cons l ls ih =>
    intro d b r h
    have step : ∀ d', (takeBalanced d' ls).map (fun p => (l :: p.1, p.2)) = some (b, r) →
        l :: ls = b ++ r ∧ ∃ t, b.getLast? = some t ∧ t.isPunct '}' = true := by
      intro d' h'
      obtain ⟨b', hb', rfl⟩ := cons_map_some h'
      obtain ⟨h1, t, ht, htp⟩ := ih d' b' r hb'
      exact ⟨by rw [h1]; rfl, t, getLast?_cons_of_some _ _ _ ht, htp⟩
    simp only [takeBalanced] at h
    split_ifs at h with h1 h2
    · cases d with
      | zero =>
        simp only [Option.some.injEq, Prod.mk.injEq] at h
        obtain ⟨rfl, rfl⟩ := h
        exact ⟨rfl, l, rfl, h1⟩
      | succ d => exact step _ h
    · exact step _ h
    · exact step _ h

theorem takeBlock_spec (ls : List Lexeme) :
    ∀ (b r : List Lexeme), takeBlock ls = some (b, r) →
      ls = b ++ r ∧ ∃ t, b.getLast? = some t ∧ t.isPunct '}' = true := by
  induction ls with
  | nil => intro b r h; simp [takeBlock] at h
  | cons l ls ih =>
    intro b r h
    simp only [takeBlock] at h
    split_ifs at h with h1 h2
    · obtain ⟨b', hb', rfl⟩ := cons_map_some h
      obtain ⟨h1, t, ht, htp⟩ := takeBalanced_spec ls 0 b' r hb'
      exact ⟨by rw [h1]; rfl, t, getLast?_cons_of_some _ _ _ ht, htp⟩
    · obtain ⟨b', hb', rfl⟩ := cons_map_some h
      obtain ⟨h1, t, ht, htp⟩ := ih b' r hb'
      exact ⟨by rw [h1]; rfl, t, getLast?_cons_of_some _ _ _ ht, htp⟩

theorem takeSyntax_spec (ls b r : List Lexeme) (h : takeSyntax ls = some (b, r)) :
    ls = b ++ r ∧ ∃ t, b.getLast? = some t ∧ t.isPunct ';' = true := by
  unfold takeSyntax at h
  split at h
  · cases h
  · rename_i body rest hst
    split at h
    · split_ifs at h
      simp only [Option.some.injEq, Prod.mk.injEq] at h
      obtain ⟨rfl, rfl⟩ := h
      exact takeStatement_spec ls 0 _ _ hst
    · cases h

theorem takeDecl_spec (kind : NodeKind) (ls b r : List Lexeme)
    (h : takeDecl kind ls = some (b, r)) :
    ls = b ++ r ∧ ((kind = .EmptyStatement ∧ b = []) ∨
      ∃ t, b.getLast? = some t ∧ (t.isPunct ';' = true ∨ t.isPunct '}' = true)) := by
  cases kind <;> simp only [takeDecl] at h
  case EmptyStatement =>
    simp only [Option.some.injEq, Prod.mk.injEq] at h
    obtain ⟨rfl, rfl⟩ := h
    exact ⟨rfl, Or.inl ⟨rfl, rfl⟩⟩
  case Syntax =>
    obtain ⟨h1, t, ht, hp⟩ := takeSyntax_spec ls b r h
    exact ⟨h1, Or.inr ⟨t, ht, Or.inl hp⟩⟩
  case Import =>
    obtain ⟨h1, t, ht, hp⟩ := takeStatement_spec ls 0 b r h
    exact ⟨h1, Or.inr ⟨t, ht, Or.inl hp⟩⟩
  case Package =>
    obtain ⟨h1, t, ht, hp⟩ := takeStatement_spec ls 0 b r h
    exact ⟨h1, Or.inr ⟨t, ht, Or.inl hp⟩⟩
  case Option =>
    obtain ⟨h1, t, ht, hp⟩ := takeStatement_spec ls 0 b r h
    exact ⟨h1, Or.inr ⟨t, ht, Or.inl hp⟩⟩
  case Message =>
    obtain ⟨h1, t, ht, hp⟩ := takeBlock_spec ls b r h
    exact ⟨h1, Or.inr ⟨t, ht, Or.inr hp⟩⟩
  case Enum =>
    obtain ⟨h1, t, ht, hp⟩ := takeBlock_spec ls b r h
    exact ⟨h1, Or.inr ⟨t, ht, Or.inr hp⟩⟩
  case Service =>
    obtain ⟨h1, t, ht, hp⟩ := takeBlock_spec ls b r h
    exact ⟨h1, Or.inr ⟨t, ht, Or.inr hp⟩⟩
  case Extend =>
    obtain ⟨h1, t, ht, hp⟩ := takeBlock_spec ls b r h
    exact ⟨h1, Or.inr ⟨t, ht, Or.inr hp⟩⟩

theorem sameLineComment_iff (line : Int) (l : Lexeme) :
    sameLineComment line l = true ↔ l.isComment = true ∧ l.pos.Line = line := by
  simp [sameLineComment]

theorem dispatch_spec (d : Dialect) (l : Lexeme) (kind : NodeKind)
    (h : dispatch d l = some kind) :
    l.isComment = false ∧ (kind = .EmptyStatement → l.isPunct ';' = true) := by
  unfold dispatch at h
  split_ifs at h with h1 h2 h3 h4 h5 h6 h7 h8 h9
  all_goals first
    | (simp only [Option.some.injEq] at h; subst h
       exact ⟨isWord_not_comment _ _ (by assumption), fun hk => by cases hk⟩)
    | (simp only [Option.some.injEq] at h; subst h
       exact ⟨isPunct_not_comment _ _ (by assumption), fun _ => by assumption⟩)

theorem scanLoop_error (fuel : Nat) :
    ∀ (pos : Position) (cs : List Char) (e : Error), cs.length < fuel →
      scanLoop fuel pos cs = .error e → e.kind = .LexError := by
  induction fuel with
  | zero => intro pos cs e hlen; omega
  | succ fuel ih =>
    intro pos cs e hlen h
    cases cs with
    | nil => simp [scanLoop] at h
    | cons c cs =>
      simp only [List.length_cons] at hlen
      simp only [scanLoop] at h
      split at h
      · exact ih _ _ _ (by omega) h
      · split at h
        · simp only [Except.error.injEq] at h
          rw [← h]
        · rename_i kind n hscan
          split at h
          · rename_i e' hrec
            simp only [Except.error.injEq] at h
            subst h
            refine ih _ _ _ ?_ hrec
            have := List.length_drop n cs
            omega
          · cases h

theorem Scan_error (filename : String) (src : List Char) (e : Error)
    (h : Scan filename src = .error e) : e.kind = .LexError := by
  unfold Scan at h
  cases src with
  | nil => cases h
  | cons c cs =>
    simp only at h
    split at h
    · exact scanLoop_error _ _ _ _ (by omega) h
    · exact scanLoop_error _ _ _ _ (by simp) h

theorem sum_RuneLen_pos (c : Char) (cs : List Char) :
    0 < (((c :: cs).map runeOf).map RuneLen).sum := by
  rw [sum_RuneLen_runeOf]
  simp only [List.map_cons, List.sum_cons]
  have := c.utf8Size_pos
  omega

theorem scanLoop_offsets (fuel : Nat) :
    ∀ (pos : Position) (cs : List Char) (ls : List Lexeme),
      scanLoop fuel pos cs = .ok ls →
        (∀ l ∈ ls, pos.Offset ≤ l.pos.Offset) ∧ OffsetsSorted ls := by
  induction fuel with
  | zero => intro pos cs ls h; simp [scanLoop] at h
  | succ fuel ih =>
    intro pos cs ls h
    cases cs with
    | nil =>
      simp only [scanLoop, Except.ok.injEq] at h
      subst h
      exact ⟨fun l hl => (by cases hl), List.Pairwise.nil⟩
    | cons c cs =>
      simp only [scanLoop] at h
      split at h
      · obtain ⟨h1, h2⟩ := ih _ _ _ h
        refine ⟨fun l hl => ?_, h2⟩
        have := h1 l hl
        have hle : pos.Offset ≤ (pos.Advance (runeOf c)).Offset := by
          rw [Advance_Offset, RuneLen_runeOf]
          have := c.utf8Size_pos
          omega
        omega
      · split at h
        · cases h
        · rename_i kind n hscan
          split at h
          · cases h
          · rename_i ls' hrec
            simp only [Except.ok.injEq] at h
            subst h
            obtain ⟨h1, h2⟩ := ih _ _ _ hrec
            have hlt : pos.Offset < (advanceAll pos ((c :: cs.take n).map runeOf)).Offset := by
              rw [advanceAll_Offset]
              have := sum_RuneLen_pos c (cs.take n)
              omega
            have hall : ∀ l ∈ ls', pos.Offset < l.pos.Offset := fun l hl => by
              have := h1 l hl
              omega
            refine ⟨fun l hl => ?_, List.Pairwise.cons (fun l hl => hall l hl) h2⟩
            rcases List.mem_cons.mp hl with rfl | hl'
            · exact le_refl _
            · exact le_of_lt (hall l hl')

theorem Scan_offsets (filename : String) (src : List Char) (ls : List Lexeme)
    (h : Scan filename src = .ok ls) : OffsetsSorted ls := by
  unfold Scan at h
  cases src with
  | nil => simp only [Except.ok.injEq] at h; subst h; exact List.Pairwise.nil
  | cons c cs =>
    simp only at h
    split at h
    · exact (scanLoop_offsets _ _ _ _ h).2
    · exact (scanLoop_offsets _ _ _ _ h).2

theorem scannedFrom_of_scan (filename input : String) (ls : List Lexeme)
    (h : Scan filename input.toList = .ok ls) : ScannedFrom filename input ls := by
  refine ⟨h, Scan_offsets _ _ _ h, ?_⟩
  intro l hl
  obtain ⟨a, b, hab, hp⟩ := Scan_located _ _ _ h l hl
  refine ⟨a, b, hab, hp, ?_⟩
  rw [hp]
  show (advanceAll (startPosition filename) (a.map runeOf)).Line = _
  rw [advanceAll_Line]
  rfl

theorem map_toComment_toLexeme (cs : List Comment) :
    (cs.map Comment.toLexeme).map toComment = cs := by
  induction cs with
  | nil => rfl
  | cons c cs ih => simp only [List.map_cons, ih, toComment_toLexeme]


theorem head?_filter {α : Type} (p : α → Bool) (xs : List α) :
    (xs.filter p).head? = xs.find? p := by
  induction xs with
  | nil => rfl
  | cons x xs ih =>
    by_cases h : p x
    · simp [List.filter_cons, List.find?_cons, h]
    · simp [List.filter_cons, List.find?_cons, h, ih]

theorem filter_segment {α : Type} (q : α → Bool) (A M B : List α)
    (hA : ∀ a ∈ A, q a = false) (hM : ∀ m ∈ M, q m = true) (hB : ∀ b ∈ B, q b = false) :
    (A ++ M ++ B).filter q = M := by
  have h1 : A.filter q = [] := by
    rw [List.filter_eq_nil_iff]; intro a ha; simp [hA a ha]
  have h2 : M.filter q = M := List.filter_eq_self.mpr hM
  have h3 : B.filter q = [] := by
    rw [List.filter_eq_nil_iff]; intro b hb; simp [hB b hb]
  rw [List.filter_append, List.filter_append, h1, h2, h3]
  simp

theorem pairwise_mid {α : Type} {R : α → α → Prop} (X : List α) (y : α) (Z : List α)
    (h : (X ++ y :: Z).Pairwise R) :
    (∀ x ∈ X, R x y) ∧ (∀ z ∈ Z, R y z) ∧ (∀ x ∈ X, ∀ z ∈ Z, R x z) := by
  obtain ⟨_, h2, h3⟩ := List.pairwise_append.mp h
  obtain ⟨h4, _⟩ := List.pairwise_cons.mp h2
  exact ⟨fun x hx => h3 x hx y (List.mem_cons_self _ _), h4,
    fun x hx z hz => h3 x hx z (List.mem_cons_of_mem _ hz)⟩

theorem isCandidate_none (n : Node) (l : Lexeme) :
    isCandidate none n l = true ↔ l.isComment = true ∧ l.pos.Offset < n.Pos.Offset := by
  simp [isCandidate]

theorem isCandidate_some (p n : Node) (l : Lexeme) :
    isCandidate (some p) n l = true ↔
      l.isComment = true ∧ l.pos.Offset < n.Pos.Offset ∧
      p.LastPos.Offset < l.pos.Offset ∧ l.pos.Line ≠ p.LastPos.Line := by
  simp [isCandidate, and_assoc]

theorem mem_leadingRunRev (ys : List Lexeme) :
    ∀ (line : Int) (l : Lexeme), l ∈ leadingRunRev line ys → l ∈ ys := by
  induction ys with
  | nil => intro line l h; simp [leadingRunRev] at h
  | cons c cs ih =>
    intro line l h
    simp only [leadingRunRev] at h
    split_ifs at h
    · rcases List.mem_cons.mp h with rfl | h'
      · exact List.mem_cons_self _ _
      · exact List.mem_cons_of_mem _ (ih _ _ h')
    · cases h

theorem mem_leadingRun (xs : List Lexeme) (line : Int) (l : Lexeme)
    (h : l ∈ leadingRun xs line) : l ∈ xs := by
  unfold leadingRun at h
  have := mem_leadingRunRev _ _ _ (List.mem_reverse.mp h)
  exact List.mem_reverse.mp this

theorem produce_ok (kind : NodeKind) (claimed : Option Comment) (pending : List Lexeme)
    (first : Lexeme) (rest : List Lexeme) (r : Produced)
    (h : produce kind claimed pending first rest = .ok r) :
    ∃ body rest₁, takeDecl kind rest = some (body, rest₁) ∧
      r.node.Comments = (leadingRun pending first.pos.Line).map toComment ∧
      r.node.InlineComment = inlineAfter (body.getLastD first).pos.Line rest₁ ∧
      r.node.Pos = first.pos ∧ r.node.LastPos = (body.getLastD first).pos ∧
      r.node.tokens = first :: body ∧
      r.rest = rest₁.dropWhile (sameLineComment (body.getLastD first).pos.Line) := by
  unfold produce at h
  split at h
  · cases h
  · rename_i body rest₁ hdecl
    simp only [Except.ok.injEq] at h
    subst h
    exact ⟨body, rest₁, hdecl, rfl, rfl, rfl, rfl, rfl, rfl⟩

theorem produce_attached (ls done rem : List Lexeme) (prev : Option Node)
    (hoff : OffsetsSorted ls) (hlin : LinesSorted ls) (hb : AtBoundary ls done rem prev)
    (first : Lexeme) (rest : List Lexeme)
    (hdrop : rem.dropWhile Lexeme.isComment = first :: rest)
    (kind : NodeKind) (claimed : Option Comment) (r : Produced)
    (hprod : produce kind claimed (rem.takeWhile Lexeme.isComment) first rest = .ok r)
    (hfirst : first.isComment = false)
    (hterm : kind = .EmptyStatement → first.isPunct ';' = true) :
    NodeAttached ls prev r.node ∧ ∃ done', AtBoundary ls done' r.rest (some r.node) := by
  obtain ⟨body, rest₁, hdecl, hcom, hinl, hpos, hlast, htok, hrest⟩ :=
    produce_ok _ _ _ _ _ _ hprod
  obtain ⟨happ, hlastb⟩ := takeDecl_spec kind rest body rest₁ hdecl
  obtain ⟨hls, hprev⟩ := hb
  have hpend : ∀ l ∈ rem.takeWhile Lexeme.isComment, l.isComment = true :=
    fun l hl => List.mem_takeWhile_imp hl
  have hrem : rem = rem.takeWhile Lexeme.isComment ++ first :: rest := by
    rw [← hdrop, List.takeWhile_append_dropWhile]
  generalize rem.takeWhile Lexeme.isComment = pending at hrem hpend hcom hprod
  have hterm? : (first :: body).getLast? = some (body.getLastD first) :=
    getLast?_cons_getLastD first body
  generalize body.getLastD first = t at hterm? hinl hlast hrest
  obtain ⟨init, hinit⟩ := List.getLast?_eq_some_iff.mp hterm?
  -- the shapes of the source
  have hls1 : ls = (done ++ pending) ++ first :: (body ++ rest₁) := by
    rw [hls, hrem, happ]; simp
  have hls2 : ls = (done ++ pending ++ init) ++ t :: rest₁ := by
    rw [hls1]
    have : first :: (body ++ rest₁) = (first :: body) ++ rest₁ := rfl
    rw [this, hinit]; simp
  obtain ⟨o1a, o1b, _⟩ := pairwise_mid (R := fun x y => x.pos.Offset < y.pos.Offset)
    (done ++ pending) first (body ++ rest₁) (by rw [← hls1]; exact hoff)
  obtain ⟨o2a, o2b, _⟩ := pairwise_mid (R := fun x y => x.pos.Offset < y.pos.Offset)
    (done ++ pending ++ init) t rest₁ (by rw [← hls2]; exact hoff)
  refine ⟨⟨?_, ?_, ?_⟩, ?_⟩
  · -- the leading comments
    rw [hcom]
    unfold expectedLeading
    rw [hpos]
    have hseg : ls.filter (isCandidate prev r.node) = pending := by
      have hls3 : ls = done ++ pending ++ (first :: (body ++ rest₁)) := hls1
      rw [hls3]
      apply filter_segment
      · intro a ha
        cases prev with
        | none =>
          simp only at hprev
          rw [hprev] at ha; cases ha
        | some p =>
          simp only at hprev
          obtain ⟨d0, tp, trailing, hdone, htp, htrail, _⟩ := hprev
          rw [Bool.eq_false_iff]
          intro hc
          rw [isCandidate_some] at hc
          obtain ⟨_, _, hc3, hc4⟩ := hc
          have hls4 : ls = d0 ++ tp :: (trailing ++ (pending ++ first :: (body ++ rest₁))) := by
            rw [hls1, hdone]; simp
          obtain ⟨o3a, _, _⟩ := pairwise_mid (R := fun x y => x.pos.Offset < y.pos.Offset)
            d0 tp _ (by rw [← hls4]; exact hoff)
          rw [hdone] at ha
          rcases List.mem_append.mp ha with h1 | h1
          · have := o3a a h1
            rw [htp] at this
            omega
          · rcases List.mem_cons.mp h1 with rfl | h2
            · rw [htp] at hc3; omega
            · have := (sameLineComment_iff _ _).mp (htrail a h2)
              exact hc4 this.2
      · intro m hm
        have hm1 : m.pos.Offset < first.pos.Offset := o1a m (List.mem_append_right _ hm)
        cases prev with
        | none =>
          rw [isCandidate_none, hpos]
          exact ⟨hpend m hm, hm1⟩
        | some p =>
          simp only at hprev
          obtain ⟨d0, tp, trailing, hdone, htp, htrail, hhead⟩ := hprev
          rw [isCandidate_some, hpos]
          have hls4 : ls = d0 ++ tp :: (trailing ++ (pending ++ first :: (body ++ rest₁))) := by
            rw [hls1, hdone]; simp
          obtain ⟨_, o3b, _⟩ := pairwise_mid (R := fun x y => x.pos.Offset < y.pos.Offset)
            d0 tp _ (by rw [← hls4]; exact hoff)
          obtain ⟨_, l3b, _⟩ := pairwise_mid (R := fun x y => x.pos.Line ≤ y.pos.Line)
            d0 tp _ (by rw [← hls4]; exact hlin)
          have hmem : m ∈ trailing ++ (pending ++ first :: (body ++ rest₁)) :=
            List.mem_append_right _ (List.mem_append_left _ hm)
          have hoffm := o3b m hmem
          rw [htp] at hoffm
          refine ⟨hpend m hm, hm1, hoffm, ?_⟩
          cases hp : pending with
          | nil => rw [hp] at hm; cases hm
          | cons c0 cs =>
            have hc0 : c0 ∈ pending := by rw [hp]; exact List.mem_cons_self _ _
            have hns := hhead c0 (cs ++ first :: rest) (by rw [hrem, hp]; rfl)
            have hc0line : c0.pos.Line ≠ p.LastPos.Line := by
              intro heq
              have := (sameLineComment_iff p.LastPos.Line c0).mpr ⟨hpend c0 hc0, heq⟩
              rw [this] at hns; cases hns
            have hle0 := l3b c0 (List.mem_append_right _ (List.mem_append_left _ hc0))
            rw [htp] at hle0
            have hle : c0.pos.Line ≤ m.pos.Line := by
              rw [hp] at hm
              rcases List.mem_cons.mp hm with rfl | hm'
              · exact le_refl _
              · have hls5 : ls = (d0 ++ tp :: trailing) ++ c0 :: (cs ++ first :: (body ++ rest₁)) := by
                  rw [hls4, hp]; simp
                obtain ⟨_, l5b, _⟩ := pairwise_mid (R := fun x y => x.pos.Line ≤ y.pos.Line)
                  _ c0 _ (by rw [← hls5]; exact hlin)
                exact l5b m (List.mem_append_left _ hm')
            omega
      · intro b hb
        rw [Bool.eq_false_iff]
        intro hc
        have hlt : b.pos.Offset < r.node.Pos.Offset := by
          cases prev with
          | none => exact ((isCandidate_none _ _).mp hc).2
          | some p => exact ((isCandidate_some _ _ _).mp hc).2.1
        rw [hpos] at hlt
        rcases List.mem_cons.mp hb with rfl | h2
        · omega
        · have := o1b b h2
          omega
    rw [hseg]
  · -- the inline comment
    rw [hinl]
    unfold commentsAfterOnLine inlineAfter
    rw [List.head?_map, hlast]
    have hfil : ls.filter (fun l => l.isComment && decide (t.pos.Offset < l.pos.Offset) &&
        (l.pos.Line == t.pos.Line)) = rest₁.filter (sameLineComment t.pos.Line) := by
      have hls3 : ls = (done ++ pending ++ init ++ [t]) ++ rest₁ := by
        rw [hls2]; simp
      rw [hls3, List.filter_append]
      have h1 : (done ++ pending ++ init ++ [t]).filter (fun l => l.isComment &&
          decide (t.pos.Offset < l.pos.Offset) && (l.pos.Line == t.pos.Line)) = [] := by
        rw [List.filter_eq_nil_iff]
        intro a ha
        have hle : a.pos.Offset ≤ t.pos.Offset := by
          rcases List.mem_append.mp ha with h1 | h1
          · exact le_of_lt (o2a a h1)
          · simp only [List.mem_singleton] at h1
            rw [h1]
        simp only [Bool.and_eq_true, decide_eq_true_eq, beq_iff_eq, not_and]
        intro hc
        omega
      rw [h1, List.nil_append]
      apply List.filter_congr
      intro z hz
      have := o2b z hz
      simp [sameLineComment, this]
    rw [hfil, head?_filter]
  · -- the declaration stands in the source
    refine ⟨first, t, ?_, ?_, hfirst, hpos, hlast, ?_, ?_, ?_⟩
    · rw [hls1]; simp
    · rw [hls2]; simp
    · rcases hlastb with ⟨hk, hbody⟩ | ⟨t', ht', hp'⟩
      · subst hbody
        simp only [List.getLast?_singleton, Option.some.injEq] at hterm?
        rw [← hterm?]
        exact Or.inl (hterm hk)
      · have : (first :: body).getLast? = some t' := getLast?_cons_of_some _ _ _ ht'
        rw [hterm?] at this
        rw [Option.some.inj this]
        exact hp'
    · rw [htok]; rfl
    · rw [htok]; exact hterm?
  · -- the next boundary
    refine ⟨(done ++ pending ++ init) ++ t :: rest₁.takeWhile (sameLineComment t.pos.Line),
      ?_, ?_⟩
    · rw [hls2, hrest]
      simp only [List.append_assoc, List.cons_append]
      rw [List.takeWhile_append_dropWhile]
    · simp only
      refine ⟨done ++ pending ++ init, t, _, rfl, hlast.symm, ?_, ?_⟩
      · intro l hl
        rw [hlast]
        exact List.mem_takeWhile_imp hl
      · intro l r' hr
        rw [hlast]
        rw [hrest] at hr
        have hne : rest₁.dropWhile (sameLineComment t.pos.Line) ≠ [] := by rw [hr]; simp
        have h2 := List.head_dropWhile_not (sameLineComment t.pos.Line) rest₁ hne
        simp only [hr, List.head_cons] at h2
        cases hd : sameLineComment t.pos.Line l with
        | false => rfl
        | true => rw [hd] at h2; cases h2

theorem nodesOf_comments (cs : List Comment) (es : List Visitee) :
    nodesOf (cs.map Visitee.comment ++ es) = nodesOf es := by
  induction cs with
  | nil => rfl
  | cons c cs ih => simpa [nodesOf] using ih

theorem nodesOf_comments_only (ls : List Lexeme) :
    nodesOf (ls.map (fun l => Visitee.comment (toComment l))) = [] := by
  induction ls with
  | nil => rfl
  | cons l ls ih => simpa [nodesOf] using ih

theorem nodesOf_produced (r : Produced) (body : List Visitee) :
    nodesOf (r.before.map Visitee.comment ++
      (Visitee.node r.node :: (r.after.map Visitee.comment ++ body)))
      = r.node :: nodesOf body := by
  rw [nodesOf_comments]
  show r.node :: nodesOf (r.after.map Visitee.comment ++ body) = _
  rw [nodesOf_comments]

theorem parseProtoBody_attached (ls : List Lexeme) (hoff : OffsetsSorted ls)
    (hlin : LinesSorted ls) (dialect : Dialect) (fuel : Nat) :
    ∀ (claimed : Option Comment) (rem : List Lexeme) (body : List Visitee),
      parseProtoBody dialect fuel claimed rem = .ok body →
      ∀ (done : List Lexeme) (prev : Option Node), AtBoundary ls done rem prev →
        Attached ls prev (nodesOf body) := by
  induction fuel with
  | zero => intro claimed rem body h; simp [parseProtoBody] at h
  | succ fuel ih =>
    intro claimed rem body h done prev hb
    simp only [parseProtoBody] at h
    split at h
    · simp only [Except.ok.injEq] at h
      subst h
      rw [nodesOf_comments_only]
      trivial
    · rename_i first rest hdrop
      split at h
      · cases h
      · rename_i kind hdisp
        split at h
        · cases h
        · rename_i r hprod
          split at h
          · cases h
          · rename_i body' hrec
            simp only [Except.ok.injEq] at h
            subst h
            obtain ⟨hfirst, hterm⟩ := dispatch_spec _ _ _ hdisp
            obtain ⟨hatt, done', hb'⟩ := produce_attached ls done rem prev hoff hlin hb
              first rest hdrop kind claimed r hprod hfirst hterm
            rw [nodesOf_produced]
            exact ⟨hatt, ih _ _ _ hrec done' (some r.node) hb'⟩

theorem parseTokens_attached (filename : String) (ls : List Lexeme) (p : Proto)
    (hoff : OffsetsSorted ls) (hlin : LinesSorted ls)
    (h : parseTokens filename ls = .ok p) : Attached ls none p.nodes := by
  have hb0 : AtBoundary ls [] ls none := ⟨rfl, rfl⟩
  unfold parseTokens at h
  have plain : ∀ fuel, (match parseProtoBody .proto2 fuel none ls with
      | .error e => (Except.error e : Except ErrorKind Proto)
      | .ok body => .ok ⟨none, body, filename⟩) = .ok p → Attached ls none p.nodes := by
    intro fuel h'
    split at h'
    · cases h'
    · rename_i body hrec
      simp only [Except.ok.injEq] at h'
      subst h'
      exact parseProtoBody_attached ls hoff hlin _ _ _ _ _ hrec [] none hb0
  split at h
  · exact plain _ h
  · rename_i first rest hdrop
    split_ifs at h with hw
    · simp only at h
      split at h
      · cases h
      · rename_i r hprod
        split at h
        · cases h
        · rename_i body hrec
          simp only [Except.ok.injEq] at h
          subst h
          obtain ⟨hatt, done', hb'⟩ := produce_attached ls [] ls none hoff hlin hb0
            first rest hdrop .Syntax none r hprod (isWord_not_comment _ _ hw)
            (fun hk => by cases hk)
          show Attached ls none (r.node :: nodesOf
            (r.before.map Visitee.comment ++ (r.after.map Visitee.comment ++ body)))
          rw [nodesOf_comments, nodesOf_comments]
          exact ⟨hatt, parseProtoBody_attached ls hoff hlin _ _ _ _ _ hrec done'
            (some r.node) hb'⟩
    · exact plain _ h

theorem produce_error (kind : NodeKind) (claimed : Option Comment) (pending : List Lexeme)
    (first : Lexeme) (rest : List Lexeme) (e : ErrorKind)
    (h : produce kind claimed pending first rest = .error e) : e = .ParseError := by
  unfold produce at h
  split at h
  · simp only [Except.error.injEq] at h
    exact h.symm
  · cases h

theorem produce_length (kind : NodeKind) (claimed : Option Comment) (pending : List Lexeme)
    (first : Lexeme) (rest : List Lexeme) (r : Produced)
    (h : produce kind claimed pending first rest = .ok r) :
    r.rest.length ≤ rest.length := by
  obtain ⟨body, rest₁, hdecl, _, _, _, _, _, hrest⟩ := produce_ok _ _ _ _ _ _ h
  obtain ⟨happ, _⟩ := takeDecl_spec kind rest body rest₁ hdecl
  have h1 : rest₁.length = _ := congrArg List.length
    (List.takeWhile_append_dropWhile (sameLineComment (body.getLastD first).pos.Line)
      rest₁).symm
  have h2 : rest.length = _ := congrArg List.length happ
  rw [hrest]
  simp only [List.length_append] at h1 h2
  omega

theorem parseProtoBody_error (dialect : Dialect) (fuel : Nat) :
    ∀ (claimed : Option Comment) (ls : List Lexeme) (e : ErrorKind), ls.length < fuel →
      parseProtoBody dialect fuel claimed ls = .error e → e = .ParseError := by
  induction fuel with
  | zero => intro claimed ls e hlen; omega
  | succ fuel ih =>
    intro claimed ls e hlen h
    simp only [parseProtoBody] at h
    split at h
    · cases h
    · rename_i first rest hdrop
      have hlen' : rest.length < ls.length := by
        have h0 : ls.length = _ :=
          congrArg List.length (List.takeWhile_append_dropWhile Lexeme.isComment ls).symm
        rw [hdrop] at h0
        simp only [List.length_append, List.length_cons] at h0
        omega
      split at h
      · simp only [Except.error.injEq] at h
        exact h.symm
      · split at h
        · rename_i e' hprod
          simp only [Except.error.injEq] at h
          subst h
          exact produce_error _ _ _ _ _ _ hprod
        · rename_i r hprod
          have := produce_length _ _ _ _ _ _ hprod
          split at h
          · rename_i e' hrec
            simp only [Except.error.injEq] at h
            subst h
            exact ih _ _ _ (by omega) hrec
          · cases h

theorem parseTokens_error (filename : String) (ls : List Lexeme) (e : ErrorKind)
    (h : parseTokens filename ls = .error e) : e = .ParseError := by
  unfold parseTokens at h
  have plain : (match parseProtoBody .proto2 (ls.length + 1) none ls with
      | .error e => (Except.error e : Except ErrorKind Proto)
      | .ok body => .ok ⟨none, body, filename⟩) = .error e → e = .ParseError := by
    intro h'
    split at h'
    · rename_i e' hrec
      simp only [Except.error.injEq] at h'
      subst h'
      exact parseProtoBody_error _ _ _ _ _ (by omega) hrec
    · cases h'
  split at h
  · exact plain h
  · split_ifs at h with hw
    · simp only at h
      split at h
      · rename_i e' hprod
        simp only [Except.error.injEq] at h
        subst h
        exact produce_error _ _ _ _ _ _ hprod
      · split at h
        · rename_i e' hrec
          simp only [Except.error.injEq] at h
          subst h
          exact parseProtoBody_error _ _ _ _ _ (by omega) hrec
        · cases h
    · exact plain h

theorem ParseProto_error (filename input : String) (e : ErrorKind)
    (h : ParseProto filename input = .error e) : e = .LexError ∨ e = .ParseError := by
  unfold ParseProto at h
  split_ifs at h
  · simp only [Except.error.injEq] at h
    exact Or.inr h.symm
  · split at h
    · rename_i e' hscan
      simp only [Except.error.injEq] at h
      rw [← h]
      exact Or.inl (Scan_error _ _ _ hscan)
    · exact Or.inr (parseTokens_error _ _ _ h)

theorem ParseProto_ok (filename input : String) (proto : Proto)
    (h : ParseProto filename input = .ok proto) :
    ∃ ls, Scan filename input.toList = .ok ls ∧ Attached ls none proto.nodes := by
  unfold ParseProto at h
  split_ifs at h
  split at h
  · cases h
  · rename_i ls hscan
    exact ⟨ls, hscan, parseTokens_attached _ _ _ (Scan_offsets _ _ _ hscan)
      (Scan_lines _ _ _ hscan) h⟩

theorem attached_pair (ls : List Lexeme) (pre : List Node) :
    ∀ (prev : Option Node) (p n : Node) (post : List Node),
      Attached ls prev (pre ++ p :: n :: post) → NodeAttached ls (some p) n := by
  induction pre with
  | nil => intro prev p n post h; exact h.2.1
  | cons x pre ih => intro prev p n post h; exact ih (some x) p n post h.2

theorem attached_mem (ls : List Lexeme) (ns : List Node) :
    ∀ (prev : Option Node), Attached ls prev ns →
      ∀ n ∈ ns, ∃ prev', NodeAttached ls prev' n := by
  induction ns with
  | nil => intro prev _ n hn; cases hn
  | cons x ns ih =>
    intro prev h n hn
    rcases List.mem_cons.mp hn with rfl | hn'
    · exact ⟨prev, h.1⟩
    · exact ih (some x) h.2 n hn'

theorem mem_expectedLeading (ls : List Lexeme) (prev : Option Node) (n : Node) (c : Comment)
    (h : c ∈ expectedLeading ls prev n) :
    ∃ l, l ∈ ls ∧ isCandidate prev n l = true ∧ c = toComment l := by
  unfold expectedLeading at h
  obtain ⟨l, hl, rfl⟩ := List.mem_map.mp h
  have := mem_leadingRun _ _ _ hl
  rw [List.mem_filter] at this
  exact ⟨l, this.1, this.2, rfl⟩

theorem head?_commentsAfterOnLine (ls : List Lexeme) (n : Node) (c : Comment)
    (h : (commentsAfterOnLine ls n).head? = some c) :
    ∃ l, l ∈ ls ∧ l.isComment = true ∧ n.LastPos.Offset < l.pos.Offset ∧
      l.pos.Line = n.LastPos.Line ∧ c = toComment l := by
  have hmem : c ∈ commentsAfterOnLine ls n := List.mem_of_mem_head? h
  unfold commentsAfterOnLine at hmem
  obtain ⟨l, hl, rfl⟩ := List.mem_map.mp hmem
  rw [List.mem_filter] at hl
  obtain ⟨h1, h2⟩ := hl
  simp only [Bool.and_eq_true, decide_eq_true_eq, beq_iff_eq] at h2
  exact ⟨l, h1, h2.1.1, h2.1.2, h2.2, rfl⟩

theorem located_lexeme (filename input : String) (ls : List Lexeme)
    (hscan : Scan filename input.toList = .ok ls) (l : Lexeme) (hl : l ∈ ls) :
    CommentLocated filename input (toComment l) :=
  Scan_located filename input.toList ls hscan l hl

theorem inline_not_leading (ls : List Lexeme) (p n : Node)
    (hp : p.InlineComment = (commentsAfterOnLine ls p).head?)
    (hn : n.Comments = expectedLeading ls (some p) n) (c : Comment)
    (hc : p.InlineComment = some c) : c ∉ n.Comments := by
  intro hmem
  rw [hp] at hc
  obtain ⟨l, _, _, _, hline, rfl⟩ := head?_commentsAfterOnLine _ _ _ hc
  rw [hn] at hmem
  obtain ⟨l', _, hcand, heq⟩ := mem_expectedLeading _ _ _ _ hmem
  have := ((isCandidate_some _ _ _).mp hcand).2.2.2
  apply this
  have hpos : l'.pos = l.pos := by
    have := congrArg Comment.Pos heq
    exact this.symm
  rw [hpos]; exact hline

theorem ok_treeOf (r : Except ErrorKind Proto) (h : isOk r = true) : r = .ok (treeOf r) := by
  cases r with
  | error e => cases h
  | ok p => rfl

/-- C8: `ParseProto` rejects empty input: for the empty source, whatever the
filename, the result is an error (a parse error); the row "parsing an empty" of
the test table has the empty input and wants an error, its check asserts
exactly that an error is returned and never looks at a tree, and it reports no
failure. -/
theorem parse_empty_is_error :
    (∀ filename : String, ParseProto filename "" = .error .ParseError) ∧
    (emptyCase Proto).input = "" ∧ (emptyCase Proto).wantErr = true ∧
    (∀ (parse : String → String → Except ErrorKind Proto) (isEOF : String → String → Bool),
      runCase parse isEOF (emptyCase Proto) = 0 ↔ ∃ e, parse "" "" = .error e) ∧
    (∀ isEOF : String → String → Bool, runCase ParseProto isEOF (emptyCase Proto) = 0) := by
  have h0 : ∀ filename : String, ParseProto filename "" = .error .ParseError := by
    intro filename; rfl
  refine ⟨h0, rfl, rfl, ?_, ?_⟩
  · intro parse isEOF
    simp only [runCase, emptyCase]
    cases parse "" "" with
    | error e => simp
    | ok p => simp
  · intro isEOF
    simp only [runCase, emptyCase, h0]
    rfl

set_option maxRecDepth 100000 in
/-- C9, as the specification states it, fails.  On the row "parsing inline
comments" of the test table, where the model builds the comments and positions
the table wants, each comment is read between the terminator of one declaration
and the first token of the next: `// syntax`, at offset 20, stands between the
`;` of the syntax statement and `import`, at offset 30.  As stated these would
be leading comments of the next declaration; the table has them as inline
comments of the previous one, and no declaration of the row has a leading
comment.  On scenario S6 of the specification the comments `// a`, `// b` and
`// c` are read before the first token of the message, yet the message has only
`// c`, and `// a` and `// b` are free-floating entries.  Each triple gives a
declaration, the comments the claim as stated gives it, and the comments it
has. -/
theorem comments_between_not_all_leading :
    viewsOf (ParseProto "inlineComments.proto" inlineCommentsInput)
      = some (inlineCommentsWant.map some) ∧
    leadingReport (lexemesOf (Scan "inlineComments.proto" inlineCommentsInput.toList)) none
        inlineCommentsTree.nodes
      = [(.Syntax, [], []),
         (.Import, [wantComment "inlineComments.proto" "// syntax" 20 2 20], []),
         (.Package, [wantComment "inlineComments.proto" "// import" 59 3 30], []),
         (.Option, [wantComment "inlineComments.proto" "/* package */" 86 4 18], []),
         (.Message, [wantComment "inlineComments.proto" "// option" 141 5 42], []),
         (.Enum, [wantComment "inlineComments.proto" "// message" 169 7 3], []),
         (.Service, [wantComment "inlineComments.proto" "// enum" 236 10 3], [])] ∧
    leadingReport (lexemesOf (Scan "s6.proto" scenarioS6.toList)) none scenarioS6Tree.nodes
      = [(.Message, [wantComment "s6.proto" "// a" 0 1 1, wantComment "s6.proto" "// b" 5 2 1,
                     wantComment "s6.proto" "// c" 11 4 1],
          [wantComment "s6.proto" "// c" 11 4 1])] ∧
    scenarioS6Tree.ProtoBody.map Visitee.view
      = [none, none,
          some ⟨.Message, [wantComment "s6.proto" "// c" 11 4 1], none, ⟨"s6.proto", 16, 5, 1⟩⟩] ∧
    scenarioS6Tree.ProtoBody.take 2
      = [Visitee.comment (wantComment "s6.proto" "// a" 0 1 1),
         Visitee.comment (wantComment "s6.proto" "// b" 5 2 1)] := by
  refine ⟨?_, ?_, ?_, ?_, ?_⟩
  · decide
  · decide
  · decide
  · decide
  · decide

/-- C9, amended: in every source that `ParseProto` parses, of the comments read
between the terminator of the previous declaration (or the start of the file)
and the first token of a declaration `n`, those that do not begin on the line of
that terminator and stand immediately before `n` with no blank line are exactly
the leading comments of `n`, in source order, each with its raw text and the
position of its first rune; the inline comment of the previous declaration is
not among them. -/
theorem leading_comments_attached (filename input : String) (proto : Proto)
    (h : ParseProto filename input = .ok proto) : LeadingAttached filename input proto := by
  obtain ⟨ls, hscan, hatt⟩ := ParseProto_ok filename input proto h
  refine ⟨ls, scannedFrom_of_scan _ _ _ hscan, ?_, ?_, ?_⟩
  · intro n post hn
    rw [hn] at hatt
    exact hatt.1.1
  · intro pre p n post hn
    have hp : p ∈ proto.nodes := by rw [hn]; simp
    obtain ⟨prev', _, hpi, _⟩ := attached_mem ls _ none hatt p hp
    rw [hn] at hatt
    have hN := attached_pair ls pre none p n post hatt
    exact ⟨hN.1, inline_not_leading ls p n hpi hN.1⟩
  · intro n hn
    obtain ⟨prev', h1, _, h3⟩ := attached_mem ls _ none hatt n hn
    refine ⟨h3, ?_⟩
    intro c hc
    rw [h1] at hc
    obtain ⟨l, hl, _, rfl⟩ := mem_expectedLeading _ _ _ _ hc
    exact located_lexeme filename input ls hscan l hl

set_option maxRecDepth 100000 in
/-- The amended claim C9 at the row "parsing comments" of the test table, where
the model builds the comments and positions the table wants, and at a source
with a comment inside a statement and one in the header of a block. -/
theorem leading_comments_attached_witness :
    ParseProto "comments.proto" commentsInput = .ok commentsTree ∧
    viewsOf (ParseProto "comments.proto" commentsInput) = some (commentsWant.map some) ∧
    LeadingAttached "comments.proto" commentsInput commentsTree ∧
    ParseProto "a.proto" innerCommentsInput = .ok innerCommentsTree ∧
    LeadingAttached "a.proto" innerCommentsInput innerCommentsTree :=
  ⟨ok_treeOf _ (by decide), by decide,
   leading_comments_attached "comments.proto" commentsInput commentsTree
     (ok_treeOf _ (by decide)),
   ok_treeOf _ (by decide),
   leading_comments_attached "a.proto" innerCommentsInput innerCommentsTree
     (ok_treeOf _ (by decide))⟩

set_option maxRecDepth 100000 in
/-- C10, as the specification states it, fails.  In the source
`syntax = "proto3"; /* a */ /* b */` the terminator of the syntax statement is
the `;` at offset 17 on line 1, and the comments `/* a */` and `/* b */` both
begin after it with no newline in between.  A node has one inline comment slot
(section 3.3), so the two, being different comments, cannot both be the inline
comment; by section 4.4 there is at most one inline comment per node and the
additional comments on the line are free-floating: the first is the inline
comment and `/* b */` is an entry of the body. -/
theorem second_comment_not_inline :
    (treeOf (ParseProto "a.proto" twoCommentsInput)).nodes.map (fun n => (n.kind, n.LastPos))
      = [(.Syntax, ⟨"a.proto", 17, 1, 18⟩)] ∧
    inlineReport (lexemesOf (Scan "a.proto" twoCommentsInput.toList))
        (treeOf (ParseProto "a.proto" twoCommentsInput))
      = [(.Syntax, [wantComment "a.proto" "/* a */" 19 1 20,
                    wantComment "a.proto" "/* b */" 27 1 28],
          some (wantComment "a.proto" "/* a */" 19 1 20))] ∧
    ¬ (∀ n ∈ (treeOf (ParseProto "a.proto" twoCommentsInput)).nodes,
        ∀ c ∈ commentsAfterOnLine (lexemesOf (Scan "a.proto" twoCommentsInput.toList)) n,
          n.InlineComment = some c) ∧
    (treeOf (ParseProto "a.proto" twoCommentsInput)).ProtoBody
      = [Visitee.comment (wantComment "a.proto" "/* b */" 27 1 28)] ∧
    wantComment "a.proto" "/* a */" 19 1 20 ≠ wantComment "a.proto" "/* b */" 27 1 28 := by
  refine ⟨?_, ?_, ?_, ?_, ?_⟩
  · decide
  · decide
  · decide
  · decide
  · decide

/-- C10, amended: in every source that `ParseProto` parses and for every
declaration `n` in it, the first comment that begins after the terminator of
`n` with no newline between the terminator and the comment is the inline
comment of `n`, with its raw text and the position of its first rune, and it is
not a leading comment of the next declaration; `n` has no inline comment when
there is no such comment. -/
theorem inline_comment_attached (filename input : String) (proto : Proto)
    (h : ParseProto filename input = .ok proto) : InlineAttached filename input proto := by
  obtain ⟨ls, hscan, hatt⟩ := ParseProto_ok filename input proto h
  refine ⟨ls, scannedFrom_of_scan _ _ _ hscan, ?_, ?_⟩
  · intro n hn
    obtain ⟨prev', _, h2, h3⟩ := attached_mem ls _ none hatt n hn
    refine ⟨h3, h2, ?_⟩
    intro c hc
    rw [h2] at hc
    obtain ⟨l, hl, _, hoff, hline, rfl⟩ := head?_commentsAfterOnLine _ _ _ hc
    exact ⟨hline, hoff, located_lexeme filename input ls hscan l hl⟩
  · intro pre p n post hn
    have hp : p ∈ proto.nodes := by rw [hn]; simp
    obtain ⟨prev', _, hpi, _⟩ := attached_mem ls _ none hatt p hp
    rw [hn] at hatt
    have hN := attached_pair ls pre none p n post hatt
    exact inline_not_leading ls p n hpi hN.1

set_option maxRecDepth 100000 in
/-- The amended claim C10 at the row "parsing inline comments" of the test
table, where the model builds the comments and positions the table wants; on
scenario S5 of the specification the inline comment is `// hi` at column 20, and
in a source with two declarations and a comment on one line the comment, which
begins after both terminators with no newline in between, is the inline comment
of both. -/
theorem inline_comment_attached_witness :
    ParseProto "inlineComments.proto" inlineCommentsInput = .ok inlineCommentsTree ∧
    viewsOf (ParseProto "inlineComments.proto" inlineCommentsInput)
      = some (inlineCommentsWant.map some) ∧
    InlineAttached "inlineComments.proto" inlineCommentsInput inlineCommentsTree ∧
    viewsOf (ParseProto "s5.proto" scenarioS5)
      = some [some ⟨.Syntax, [], some (wantComment "s5.proto" "// hi" 19 1 20),
                ⟨"s5.proto", 0, 1, 1⟩⟩] ∧
    inlineReport (lexemesOf (Scan "a.proto" twoDeclsInput.toList))
        (treeOf (ParseProto "a.proto" twoDeclsInput))
      = [(.Message, [wantComment "a.proto" "// c" 23 1 24],
          some (wantComment "a.proto" "// c" 23 1 24)),
         (.Enum, [wantComment "a.proto" "// c" 23 1 24],
          some (wantComment "a.proto" "// c" 23 1 24))] :=
  ⟨ok_treeOf _ (by decide), by decide,
   inline_comment_attached "inlineComments.proto" inlineCommentsInput inlineCommentsTree
     (ok_treeOf _ (by decide)), by decide, by decide⟩

end Parser

namespace Scanner

theorem revertAll_snoc (p : Position) (rs : List Rune) (r : Rune) :
    revertAll p (rs ++ [r]) = (revertAll p rs).Revert r := by
  simp [revertAll, List.foldl_append]

theorem readUnread_nil (p : Position) : readUnread p [] = p := rfl

theorem readUnread_cons (p : Position) (r : Rune) (rs : List Rune) :
    readUnread p (r :: rs) = (readUnread (p.Advance r) rs).Revert r := by
  unfold readUnread
  rw [List.reverse_cons, revertAll_snoc, advanceAll_cons]

theorem Advance_Line_ge (p : Position) (r : Rune) : p.Line ≤ (p.Advance r).Line := by
  rw [Advance_Line]; split <;> omega

theorem Advance_columns_below (p : Position) (r : Rune) (k : Int) (hk : k < p.Line) :
    (p.Advance r).columns k = p.columns k := by
  rw [Advance_columns]
  split
  · have : k ≠ p.Line := by omega
    simp [mapSet, this]
  · rfl

theorem readUnread_spec (rs : List Rune) :
    ∀ p : Position,
      (readUnread p rs).Offset = p.Offset ∧ (readUnread p rs).Line = p.Line ∧
      (readUnread p rs).Column = p.Column ∧ (readUnread p rs).Filename = p.Filename ∧
      ∀ k, k < p.Line → (readUnread p rs).columns k = p.columns k := by
  induction rs with
  | nil => intro p; exact ⟨rfl, rfl, rfl, rfl, fun _ _ => rfl⟩
  | cons r rs ih =>
    intro p
    obtain ⟨ho, hl, hc, hf, hm⟩ := ih (p.Advance r)
    have hge := Advance_Line_ge p r
    rw [readUnread_cons]
    refine ⟨?_, ?_, ?_, ?_, ?_⟩
    · rw [Revert_Offset, ho, Advance_Offset]; ring
    · rw [Revert_Line, hl, Advance_Line]; split <;> simp
    · rw [Revert_Column, hl, hc, Advance_Line, Advance_Column]
      split
      · rename_i hr
        have h1 : (readUnread (p.Advance r) rs).columns p.Line
            = (p.Advance r).columns p.Line := by
          apply hm
          rw [Advance_Line, if_pos hr]; omega
        have h2 : (p.Advance r).columns p.Line = some p.Column := by
          rw [Advance_columns, if_pos hr]; simp [mapSet]
        have h3 : p.Line + 1 - 1 = p.Line := by ring
        rw [h3]
        simp [mapGet, h1, h2]
      · simp
    · rw [Revert_Filename, hf, Advance_Filename]
    · intro k hk
      rw [Revert_columns, hm k (by omega), Advance_columns_below p r k hk]

theorem run_Filename (steps : List Step) :
    ∀ p : Position, (run p steps).Filename = p.Filename := by
  induction steps with
  | nil => intro p; rfl
  | cons s rest ih =>
    intro p
    show (run (p.step s) rest).Filename = p.Filename
    rw [ih]
    cases s with
    | advance r => exact Advance_Filename p r
    | revert r => exact Revert_Filename p r

theorem RuneLen_of_invalid (r : Rune) (h : ValidRune r = false) : RuneLen r = -1 := by
  unfold ValidRune at h
  unfold RuneLen
  unfold Rune at *
  split_ifs at h ⊢ <;> first | rfl | (exfalso; omega)

theorem invalid_iff (r : Rune) :
    ValidRune r = false ↔ (0xD800 ≤ r ∧ r ≤ 0xDFFF) ∨ 0x10FFFF < r ∨ r < 0 := by
  unfold ValidRune
  unfold Rune at *
  split_ifs <;> simp <;> omega

theorem invalid_ne_newline (r : Rune) (h : ValidRune r = false) : r ≠ runeOf '\n' := by
  intro hr
  rw [hr] at h
  exact absurd h (by decide)

/-- C11: `Advance` archives the departing line's final column and touches
nothing else in the map: from a state with line `L` and column `C`, `Advance`
of a newline gives a map with `columns[L] = C` and every entry for another key
unchanged, line `L + 1` and column 1; `Advance` of any other rune leaves the
map and the line unchanged and sets the column to `C + 1`. -/
theorem advance_archives_column (p : Position) (r : Rune) :
    (p.Advance (runeOf '\n')).columns p.Line = some p.Column ∧
    (p.Advance (runeOf '\n')).Line = p.Line + 1 ∧
    (p.Advance (runeOf '\n')).Column = 1 ∧
    (∀ k, k ≠ p.Line → (p.Advance (runeOf '\n')).columns k = p.columns k) ∧
    (r ≠ runeOf '\n' →
      (p.Advance r).columns = p.columns ∧ (p.Advance r).Line = p.Line ∧
      (p.Advance r).Column = p.Column + 1) := by
  refine ⟨?_, ?_, ?_, ?_, ?_⟩
  · simp [Advance_columns, mapSet]
  · simp [Advance_Line]
  · simp [Advance_Column]
  · intro k hk
    simp [Advance_columns, mapSet, hk]
  · intro hr
    refine ⟨?_, ?_, ?_⟩
    · rw [Advance_columns, if_neg hr]
    · rw [Advance_Line, if_neg hr]
    · rw [Advance_Column, if_neg hr]

/-- C12: the filename is carried through unchanged: `Advance` and `Revert` leave
the filename as it is for every state and rune, so after any sequence of
`Advance` and `Revert` calls the tracker, and the position it reports, still
have the filename the tracker was given. -/
theorem filename_unchanged (p : Position) (r : Rune) (steps : List Step) :
    (p.Advance r).Filename = p.Filename ∧ (p.Revert r).Filename = p.Filename ∧
    (run p steps).Filename = p.Filename ∧
    (run p steps).toPosition.Filename = p.toPosition.Filename :=
  ⟨Advance_Filename p r, Revert_Filename p r, run_Filename steps p, run_Filename steps p⟩

/-- C13: `Revert` supports more than one level when it is used as a stack: from
any state and for any list of runes, `Advance` for each rune in order and then
`Revert` for each rune in reverse order gives back the offset, the line and the
column the state had, also across several newlines; on a text with four
newlines a fresh position comes back to offset 0, line 1, column 1. -/
theorem revert_stack (p : Position) (rs : List Rune) :
    (readUnread p rs).Offset = p.Offset ∧ (readUnread p rs).Line = p.Line ∧
    (readUnread p rs).Column = p.Column ∧
    newlineCount sampleRunes = 4 ∧
    (advanceAll NewPosition sampleRunes).Line = 5 ∧
    (readUnread NewPosition sampleRunes).Offset = 0 ∧
    (readUnread NewPosition sampleRunes).Line = 1 ∧
    (readUnread NewPosition sampleRunes).Column = 1 := by
  obtain ⟨ho, hl, hc, _, _⟩ := readUnread_spec rs p
  exact ⟨ho, hl, hc, by decide, by decide, by decide, by decide, by decide⟩

/-- C14: `Revert` never writes to the archived-column map: for every state and
rune the map after `Revert` is the map before it; the only use `Revert` makes
of the map is to read the entry of the line it returns to. -/
theorem revert_keeps_columns (p : Position) (r : Rune) :
    (p.Revert r).columns = p.columns ∧
    (p.Revert (runeOf '\n')).Column = mapGet p.columns (p.Line - 1) := by
  refine ⟨Revert_columns p r, ?_⟩
  simp [Revert_Column]

/-- C15: `Revert` does not detect a revert without a matching advance: it gives
a state, never an error, for every state and rune, and it can leave the 1-based
range: `Revert` of a newline on a fresh position gives offset -1, line 0 and
column 0, and on any state whose previous line has no archived entry it sets
the column to 0. -/
theorem revert_unmatched (p : Position) (r : Rune) :
    (∃ q : Position, p.Revert r = q) ∧
    (NewPosition.Revert (runeOf '\n')).Offset = -1 ∧
    (NewPosition.Revert (runeOf '\n')).Line = 0 ∧
    (NewPosition.Revert (runeOf '\n')).Column = 0 ∧
    (p.columns (p.Line - 1) = none →
      (p.Revert (runeOf '\n')).Column = 0 ∧ (p.Revert (runeOf '\n')).Line = p.Line - 1) := by
  refine ⟨⟨_, rfl⟩, by decide, by decide, by decide, ?_⟩
  intro h
  simp [Revert_Column, Revert_Line, mapGet, h]

/-- C16: `Advance` moves the offset by `utf8.RuneLen` of the rune exactly: for a
valid rune that is 1 below U+0080, 2 below U+0800, 3 below U+10000 and 4
otherwise, the length of its UTF-8 encoding; a rune with no UTF-8 encoding (a
surrogate, a value above U+10FFFF or a negative value) has `RuneLen` -1, so
`Advance` takes 1 off the offset and still adds 1 to the column. -/
theorem advance_offset_runeLen (p : Position) (r : Rune) :
    (p.Advance r).Offset = p.Offset + RuneLen r ∧
    (ValidRune r = true →
      (RuneLen r = 1 ∨ RuneLen r = 2 ∨ RuneLen r = 3 ∨ RuneLen r = 4) ∧
      (r < 0x80 → RuneLen r = 1) ∧ (0x80 ≤ r → r < 0x800 → RuneLen r = 2) ∧
      (0x800 ≤ r → r < 0x10000 → RuneLen r = 3) ∧ (0x10000 ≤ r → RuneLen r = 4)) ∧
    (∀ c : Char, RuneLen (runeOf c) = (c.utf8Size : Int)) ∧
    (ValidRune r = false ↔ (0xD800 ≤ r ∧ r ≤ 0xDFFF) ∨ 0x10FFFF < r ∨ r < 0) ∧
    (ValidRune r = false →
      RuneLen r = -1 ∧ (p.Advance r).Offset = p.Offset - 1 ∧
      (p.Advance r).Column = p.Column + 1) ∧
    (NewPosition.Advance 0xD800).Offset = -1 ∧ (NewPosition.Advance 0xD800).Column = 2 := by
  refine ⟨Advance_Offset p r, ?_, RuneLen_runeOf, invalid_iff r, ?_, by decide, by decide⟩
  · intro h
    unfold ValidRune at h
    unfold RuneLen
    unfold Rune at *
    split_ifs at h ⊢ <;> simp <;> omega
  · intro h
    have hlen := RuneLen_of_invalid r h
    refine ⟨hlen, ?_, ?_⟩
    · rw [Advance_Offset, hlen]; ring
    · rw [Advance_Column, if_neg (invalid_ne_newline r h)]

end Scanner
